import Mathlib

/-!
Verification of the n-dimensional hypercube renderer.

The JavaScript source is shallowly embedded: points are lists of rationals
(every IEEE double is a rational, and all arithmetic relevant to the claims
is exact), matrices are lists of rows, generators are materialized as lists,
and a thrown exception is an `Except.error`.  The trigonometric library
functions `Math.cos`, `Math.sin` and the constant `Math.PI` are passed as
explicit parameters, since the claims about the rotation pipeline only
concern the structure of the computation, not concrete cosine values.
-/

set_option maxHeartbeats 1000000

namespace HypercubeRenderer

/-! ### Binary strings, as produced by JavaScript `i.toString(2)` -/

/-- Structural helper for the binary-digit list: the first argument is fuel,
always at least the number being converted. -/
def natBinaryFuel : ℕ → ℕ → List Bool
  | 0, n => [n == 1]
  | fuel + 1, n => if n < 2 then [n == 1] else natBinaryFuel fuel (n / 2) ++ [n % 2 == 1]

/-- The list of binary digits of a natural number, most significant first,
mirroring JavaScript `i.toString(2)` (so 0 becomes the single digit 0).
A digit is modelled as a Bool, true standing for the character 1. -/
def natBinary (n : ℕ) : List Bool :=
  natBinaryFuel n n

theorem natBinaryFuel_congr : ∀ fuel₁ fuel₂ n, n ≤ fuel₁ → n ≤ fuel₂ →
    natBinaryFuel fuel₁ n = natBinaryFuel fuel₂ n := by
  intro fuel₁
  induction fuel₁ with
  | zero =>
    intro fuel₂ n h₁ _
    obtain rfl : n = 0 := by omega
    cases fuel₂ <;> simp [natBinaryFuel]
  | succ fuel ih =>
    intro fuel₂ n h₁ h₂
    cases fuel₂ with
    | zero =>
      obtain rfl : n = 0 := by omega
      simp [natBinaryFuel]
    | succ fuel' =>
      by_cases h2 : n < 2
      · simp [natBinaryFuel, h2]
      · simp only [natBinaryFuel, if_neg h2]
        rw [ih fuel' (n / 2) (by omega) (by omega)]

/-- The defining equation of the binary conversion, in the form the
JavaScript recursion suggests. -/
theorem natBinary_eq (n : ℕ) :
    natBinary n = if n < 2 then [n == 1] else natBinary (n / 2) ++ [n % 2 == 1] := by
  by_cases h2 : n < 2
  · rw [if_pos h2]
    interval_cases n <;> rfl
  · rw [if_neg h2]
    show natBinaryFuel n n = _
    obtain ⟨m, rfl⟩ : ∃ m, n = m + 1 := ⟨n - 1, by omega⟩
    simp only [natBinaryFuel, if_neg h2]
    rw [natBinaryFuel_congr m ((m + 1) / 2) ((m + 1) / 2) (by omega) (by omega)]
    rfl

/-- JavaScript `padStart(len, "0")`: left-pad with the digit 0 (never truncates). -/
def padStartFalse (len : ℕ) (l : List Bool) : List Bool :=
  List.replicate (len - l.length) false ++ l

/-- The width-`d` big-endian binary representation of `i`: position `k`
(counted from the left) holds bit `d - 1 - k` of `i`. -/
def bitsOfWidth (d i : ℕ) : List Bool :=
  (List.range d).map fun k => i.testBit (d - 1 - k)

theorem natBinary_zero : natBinary 0 = [false] := rfl

theorem natBinary_one : natBinary 1 = [true] := rfl

theorem natBinary_of_ge (n : ℕ) (h : 2 ≤ n) :
    natBinary n = natBinary (n / 2) ++ [n % 2 == 1] := by
  rw [natBinary_eq]
  simp [Nat.not_lt.mpr h]

theorem natBinary_length_le (d : ℕ) : ∀ n, n < 2 ^ (d + 1) → (natBinary n).length ≤ d + 1 := by
  induction d with
  | zero =>
    intro n hn
    interval_cases n <;> simp [natBinary_zero, natBinary_one]
  | succ d ih =>
    intro n hn
    by_cases h2 : n < 2
    · rw [natBinary_eq]
      simp [h2]
    · rw [natBinary_of_ge n (Nat.not_lt.mp h2)]
      have hdiv : n / 2 < 2 ^ (d + 1) := by
        apply Nat.div_lt_of_lt_mul
        rw [← pow_succ']
        exact hn
      have := ih (n / 2) hdiv
      simp only [List.length_append, List.length_cons, List.length_nil]
      omega

theorem bitsOfWidth_zero (w : ℕ) : bitsOfWidth w 0 = List.replicate w false := by
  simp [bitsOfWidth, List.eq_replicate_iff]

theorem bitsOfWidth_succ (d i : ℕ) :
    bitsOfWidth (d + 1) i = bitsOfWidth d (i / 2) ++ [i.testBit 0] := by
  unfold bitsOfWidth
  rw [List.range_succ, List.map_append]
  congr 1
  · apply List.map_congr_left
    intro k hk
    rw [List.mem_range] at hk
    rw [Nat.testBit_div_two]
    congr 1
    omega
  · simp

/-- Left-padding the JavaScript binary string of `i < 2 ^ d` to width `d`
yields exactly the big-endian `d`-bit representation of `i`. -/
theorem padStart_natBinary (d : ℕ) : ∀ i, i < 2 ^ (d + 1) →
    padStartFalse (d + 1) (natBinary i) = bitsOfWidth (d + 1) i := by
  induction d with
  | zero =>
    intro i hi
    interval_cases i <;> simp [padStartFalse, natBinary_zero, natBinary_one, bitsOfWidth]
  | succ d ih =>
    intro i hi
    by_cases h2 : i < 2
    · have hb : natBinary i = [i == 1] := by rw [natBinary_eq]; simp [h2]
      rw [hb, bitsOfWidth_succ]
      have hzero : i / 2 = 0 := by omega
      rw [hzero, bitsOfWidth_zero]
      have hbit : i.testBit 0 = (i == 1) := by interval_cases i <;> decide
      simp [padStartFalse, hbit, List.replicate_succ]
    · rw [natBinary_of_ge i (Nat.not_lt.mp h2), bitsOfWidth_succ]
      have hdiv : i / 2 < 2 ^ (d + 1) := by
        apply Nat.div_lt_of_lt_mul
        rw [← pow_succ']
        exact hi
      have hlen : (natBinary (i / 2)).length ≤ d + 1 := natBinary_length_le d _ hdiv
      have := ih (i / 2) hdiv
      unfold padStartFalse at this ⊢
      rw [List.length_append, List.length_cons, List.length_nil]
      have harith : d + 1 + 1 - ((natBinary (i / 2)).length + 1)
          = d + 1 - (natBinary (i / 2)).length := by omega
      rw [harith, ← List.append_assoc, this]
      have hbit : i.testBit 0 = (i % 2 == 1) := by
        rcases Nat.mod_two_eq_zero_or_one i with h | h <;> simp [Nat.testBit_zero, h]
      rw [hbit]

theorem natBinary_two_pow_length (d : ℕ) : (natBinary (2 ^ d)).length = d + 1 := by
  induction d with
  | zero => simp [natBinary_one]
  | succ d ih =>
    rw [natBinary_of_ge]
    · have : 2 ^ (d + 1) / 2 = 2 ^ d := by
        rw [pow_succ]
        exact Nat.mul_div_cancel _ (by norm_num)
      rw [this]
      simp [ih]
    · have : (2:ℕ) ^ 1 ≤ 2 ^ (d + 1) := Nat.pow_le_pow_right (by norm_num) (by omega)
      simpa using this

/-! ### The vertex generator (`cubePointsGenerator` in renderer.js) -/

/-- Embedding of `cubePointsGenerator`: for each `i < 2 ^ dimension`, convert
`i` to binary, left-pad with zeros to the length of `2 ^ dimension` in binary
minus one, map digit 0 to -1 and digit 1 to 1, then multiply by `size / 2`. -/
def cubePointsGenerator (dimension : ℕ) (size : ℚ) : List (List ℚ) :=
  (List.range (2 ^ dimension)).map fun i =>
    ((padStartFalse ((natBinary (2 ^ dimension)).length - 1) (natBinary i)).map
        fun x => if x then (1 : ℚ) else -1).map
      fun x => x * size / 2

/-- The Bool-valued skeleton of the vertex list: vertex `i` is the width-`d`
big-endian bit vector of `i`. -/
def cubeBits (d : ℕ) : List (List Bool) :=
  (List.range (2 ^ d)).map (bitsOfWidth d)

/-- The coordinate scaling used by the generator: digit `b` becomes `±size/2`. -/
def scaleBit (size : ℚ) (b : Bool) : ℚ :=
  (if b then (1 : ℚ) else -1) * size / 2

theorem cubePointsGenerator_eq_map (d : ℕ) (s : ℚ) (hd : 1 ≤ d) :
    cubePointsGenerator d s = (cubeBits d).map (List.map (scaleBit s)) := by
  obtain ⟨d', rfl⟩ : ∃ d', d = d' + 1 := ⟨d - 1, by omega⟩
  unfold cubePointsGenerator cubeBits
  rw [List.map_map]
  apply List.map_congr_left
  intro i hi
  rw [List.mem_range] at hi
  rw [natBinary_two_pow_length]
  simp only [Nat.add_sub_cancel, Function.comp]
  rw [padStart_natBinary d' i hi, List.map_map]
  rfl

theorem scaleBit_injective (s : ℚ) (hs : s ≠ 0) : Function.Injective (scaleBit s) := by
  intro a b hab
  cases a <;> cases b <;> simp_all [scaleBit] <;>
    · exfalso
      apply hs
      linarith

theorem bitsOfWidth_length (d i : ℕ) : (bitsOfWidth d i).length = d := by
  simp [bitsOfWidth]

theorem bitsOfWidth_injOn (d : ℕ) : ∀ i < 2 ^ d, ∀ j < 2 ^ d,
    bitsOfWidth d i = bitsOfWidth d j → i = j := by
  intro i hi j hj h
  apply Nat.eq_of_testBit_eq
  intro k
  by_cases hk : k < d
  · have hfun := congrArg (fun l => l.getD (d - 1 - k) false) h
    simp only [bitsOfWidth, List.getD_eq_getElem?_getD, List.getElem?_map,
      List.getElem?_range (show d - 1 - k < d by omega), Option.map_some', Option.getD_some] at hfun
    have harith : d - 1 - (d - 1 - k) = k := by omega
    rw [harith] at hfun
    exact hfun
  · rw [Nat.testBit_lt_two_pow (lt_of_lt_of_le hi (Nat.pow_le_pow_right (by norm_num) (by omega))),
      Nat.testBit_lt_two_pow (lt_of_lt_of_le hj (Nat.pow_le_pow_right (by norm_num) (by omega)))]

theorem cubeBits_nodup (d : ℕ) : (cubeBits d).Nodup := by
  unfold cubeBits
  apply List.Nodup.map_on
  · intro i hi j hj h
    rw [List.mem_range] at hi hj
    exact bitsOfWidth_injOn d i hi j hj h
  · exact List.nodup_range _

theorem cubePointsGenerator_length (d : ℕ) (s : ℚ) :
    (cubePointsGenerator d s).length = 2 ^ d := by
  simp [cubePointsGenerator]

theorem cubePointsGenerator_getD (d : ℕ) (s : ℚ) (hd : 1 ≤ d) (i : ℕ) (hi : i < 2 ^ d) :
    (cubePointsGenerator d s).getD i [] = (bitsOfWidth d i).map (scaleBit s) := by
  rw [cubePointsGenerator_eq_map d s hd]
  rw [List.getD_eq_getElem?_getD, List.getElem?_map]
  unfold cubeBits
  rw [List.getElem?_map, List.getElem?_range hi]
  rfl

theorem cubePointsGenerator_nodup (d : ℕ) (s : ℚ) (hd : 1 ≤ d) (hs : s ≠ 0) :
    (cubePointsGenerator d s).Nodup := by
  rw [cubePointsGenerator_eq_map d s hd]
  apply List.Nodup.map _ (cubeBits_nodup d)
  exact List.map_injective_iff.mpr (scaleBit_injective s hs)

theorem scaleBit_zero (b : Bool) : scaleBit 0 b = 0 := by
  cases b <;> simp [scaleBit]

/-- **C2, counterexample.** The claim quantifies over every size `s`, but at
`s = 0` all generated points collapse to the origin, so the `2 ^ D` points of
the `D = 2` cube are not pairwise distinct. -/
theorem vertex_distinct_fails_at_size_zero : ¬ (cubePointsGenerator 2 0).Nodup := by
  rw [cubePointsGenerator_eq_map 2 0 (by norm_num)]
  have hb : cubeBits 2 = [[false, false], [false, true], [true, false], [true, true]] := by
    decide
  rw [hb]
  simp [scaleBit_zero]

/-- **C2 (amended).** For every `D ≥ 2` and size `s`, the vertex generator
yields exactly `2 ^ D` points; the point at index `i` has coordinate `k`
equal to `s / 2` when bit `k` (most significant first, zero-padded to `D`
bits) of `i` is 1 and `-s / 2` when it is 0; the points are pairwise
distinct provided `s ≠ 0` (at `s = 0` they all coincide); and identical
`(D, s)` inputs yield the identical, identically-ordered sequence. -/
theorem vertex_generator_spec (d : ℕ) (s : ℚ) (hd : 2 ≤ d) :
    (cubePointsGenerator d s).length = 2 ^ d ∧
    (∀ i < 2 ^ d, (cubePointsGenerator d s).getD i [] =
      (List.range d).map fun k => if i.testBit (d - 1 - k) then s / 2 else -(s / 2)) ∧
    (s ≠ 0 → (cubePointsGenerator d s).Nodup) ∧
    (∀ d' s', d = d' → s = s' → cubePointsGenerator d s = cubePointsGenerator d' s') := by
  refine ⟨cubePointsGenerator_length d s, ?_, cubePointsGenerator_nodup d s (by omega), ?_⟩
  · intro i hi
    rw [cubePointsGenerator_getD d s (by omega) i hi]
    unfold bitsOfWidth
    rw [List.map_map]
    apply List.map_congr_left
    intro k _
    by_cases hb : i.testBit (d - 1 - k) <;>
      simp [Function.comp, hb, scaleBit, neg_div]
  · intro d' s' hd' hs'
    rw [hd', hs']

/-- Witness for the amended C2 at `D = 2`, `s = 1`. -/
theorem vertex_gen_spec_witness :
    (2 ≤ 2) ∧ ((cubePointsGenerator 2 1).length = 2 ^ 2 ∧
    (∀ i < 2 ^ 2, (cubePointsGenerator 2 1).getD i [] =
      (List.range 2).map fun k => if i.testBit (2 - 1 - k) then (1 : ℚ) / 2 else -(1 / 2)) ∧
    ((1 : ℚ) ≠ 0 → (cubePointsGenerator 2 1).Nodup) ∧
    (∀ d' s', 2 = d' → (1 : ℚ) = s' → cubePointsGenerator 2 1 = cubePointsGenerator d' s')) :=
  ⟨by norm_num, vertex_generator_spec 2 1 (by norm_num)⟩

/-! ### Coordinate matching (the shared-dimension counting of renderer.js) -/

section Adjacency

variable {α : Type} [DecidableEq α] {β : Type} [DecidableEq β]

/-- Number of indices of `a` at which `a` and `b` hold equal values,
mirroring the JavaScript reduction over the index set of `a` (an index
beyond the end of `b` compares unequal, as undefined does). -/
def matchCount (a b : List α) : ℕ :=
  (List.range a.length).countP fun ii => decide (a[ii]? = b[ii]?)

/-- Number of indices of `a` at which `a` and `b` differ. -/
def diffCount (a b : List α) : ℕ :=
  (List.range a.length).countP fun ii => decide (¬ a[ii]? = b[ii]?)

theorem matchCount_add_diffCount (a b : List α) :
    matchCount a b + diffCount a b = a.length := by
  unfold matchCount diffCount
  have h : (fun ii : ℕ => decide (¬ a[ii]? = b[ii]?))
      = fun ii : ℕ => ! decide (a[ii]? = b[ii]?) := by
    funext ii
    exact @decide_not (a[ii]? = b[ii]?) _ _
  rw [h]
  rw [show (fun ii : ℕ => ! decide (a[ii]? = b[ii]?))
      = fun ii : ℕ => decide (¬ decide (a[ii]? = b[ii]?) = true) from by
    funext ii
    simp]
  rw [← List.length_eq_countP_add_countP, List.length_range]

/-- Total indexing into the vertex list: `pts[i]`, empty beyond the end
(such an access never occurs on the generator call sites). -/
def nth (pts : List (List α)) (i : ℕ) : List α :=
  pts.getD i []

omit [DecidableEq α] [DecidableEq β] in
theorem nth_map (f : α → β) (pts : List (List α)) (i : ℕ) :
    nth (pts.map (List.map f)) i = List.map f (nth pts i) := by
  unfold nth
  rw [List.getD_eq_getElem?_getD, List.getD_eq_getElem?_getD, List.getElem?_map]
  cases pts[i]? <;> rfl

omit [DecidableEq α] in
theorem nth_length (c : ℕ) (pts : List (List α)) (hlen : ∀ p ∈ pts, p.length = c)
    (i : ℕ) (hi : i < pts.length) : (nth pts i).length = c := by
  apply hlen
  unfold nth
  rw [List.getD_eq_getElem?_getD, List.getElem?_eq_getElem hi]
  exact List.getElem_mem hi

omit [DecidableEq α] in
theorem nth_eq_getElem (pts : List (List α)) (i : ℕ) (hi : i < pts.length) :
    nth pts i = pts[i] := by
  unfold nth
  rw [List.getD_eq_getElem?_getD, List.getElem?_eq_getElem hi]
  rfl

theorem matchCount_map (f : α → β) (hf : Function.Injective f) (a b : List α) :
    matchCount (a.map f) (b.map f) = matchCount a b := by
  unfold matchCount
  rw [List.length_map]
  apply List.countP_congr
  intro ii _
  simp only [List.getElem?_map, decide_eq_true_eq]
  exact ⟨fun h => Option.map_injective hf h, fun h => by rw [h]⟩

theorem diffCount_map (f : α → β) (hf : Function.Injective f) (a b : List α) :
    diffCount (a.map f) (b.map f) = diffCount a b := by
  have h := matchCount_add_diffCount (a.map f) (b.map f)
  have h' := matchCount_add_diffCount a b
  rw [matchCount_map f hf, List.length_map] at h
  omega

end Adjacency

/-! ### The edge generator (`edgeGenerator` in renderer.js) -/

section EdgeGen

variable {α : Type} [DecidableEq α] {β : Type} [DecidableEq β]

/-- Embedding of `edgeGenerator`: for every ordered index pair of the point
list, skip pairs of identical indices (the source compares object identities,
and the generator materializes a fresh array per vertex); raise the length
error when the two points have different lengths; otherwise emit the pair
when the points agree on all but one dimension. -/
def edgeGenerator (dimension : ℕ) (pts : List (List α)) :
    Except String (List (ℕ × ℕ)) := do
  let rows ← (List.range pts.length).mapM fun i => do
    let cells ← (List.range pts.length).mapM fun j =>
      if i = j then pure []
      else if (nth pts i).length ≠ (nth pts j).length then
        Except.error "Vectors do not have same length"
      else if matchCount (nth pts i) (nth pts j) = dimension - 1 then
        pure [(i, j)]
      else pure ([] : List (ℕ × ℕ))
    pure cells.flatten
  pure rows.flatten

/-- The pure pair list the generator produces when no length error fires. -/
def edgeCands (dimension : ℕ) (pts : List (List α)) : List (ℕ × ℕ) :=
  (List.range pts.length).flatMap fun i =>
    ((List.range pts.length).filter fun j =>
        decide (i ≠ j ∧ matchCount (nth pts i) (nth pts j) = dimension - 1)).map
      fun j => (i, j)

theorem mapM_ok {γ δ : Type} (l : List γ) (f : γ → Except String δ) (g : γ → δ)
    (h : ∀ x ∈ l, f x = .ok (g x)) : l.mapM f = .ok (l.map g) := by
  induction l with
  | nil => rfl
  | cons x xs ih =>
    rw [List.mapM_cons, h x (by simp), List.map_cons]
    rw [ih fun y hy => h y (by simp [hy])]
    rfl

theorem flatMap_if_singleton {γ : Type} (l : List ℕ) (p : ℕ → Bool) (f : ℕ → γ) :
    (l.flatMap fun j => if p j then [f j] else []) = (l.filter p).map f := by
  induction l with
  | nil => rfl
  | cons x xs ih =>
    by_cases hp : p x <;> simp [List.filter_cons, hp, ih]

theorem edgeGenerator_ok (d c : ℕ) (pts : List (List α))
    (hlen : ∀ p ∈ pts, p.length = c) :
    edgeGenerator d pts = .ok (edgeCands d pts) := by
  unfold edgeGenerator
  have hinner : ∀ i ∈ List.range pts.length,
      ((List.range pts.length).mapM fun j =>
        if i = j then pure []
        else if (nth pts i).length ≠ (nth pts j).length then
          Except.error "Vectors do not have same length"
        else if matchCount (nth pts i) (nth pts j) = d - 1 then
          pure [(i, j)]
        else pure ([] : List (ℕ × ℕ))) =
      .ok ((List.range pts.length).map fun j =>
        if decide (i ≠ j ∧ matchCount (nth pts i) (nth pts j) = d - 1)
        then [(i, j)] else []) := by
    intro i hi
    rw [List.mem_range] at hi
    apply mapM_ok
    intro j hj
    rw [List.mem_range] at hj
    by_cases hij : i = j
    · have hc : decide (i ≠ j ∧ matchCount (nth pts i) (nth pts j) = d - 1)
          = false := by simp [hij]
      rw [if_pos hij, hc]
      rfl
    · rw [if_neg hij,
        if_neg (by rw [nth_length c pts hlen i hi, nth_length c pts hlen j hj]
                   exact fun h => h rfl)]
      by_cases hm : matchCount (nth pts i) (nth pts j) = d - 1
      · have hc : decide (i ≠ j ∧ matchCount (nth pts i) (nth pts j) = d - 1)
            = true := by simp [hij, hm]
        rw [if_pos hm, hc]
        rfl
      · have hc : decide (i ≠ j ∧ matchCount (nth pts i) (nth pts j) = d - 1)
            = false := by simp [hij, hm]
        rw [if_neg hm, hc]
        rfl
  rw [mapM_ok _ _ _ fun i hi => by
    rw [hinner i hi]
    rfl]
  show Except.ok _ = _
  unfold edgeCands
  congr 1
  rw [List.flatMap_def]
  apply congrArg List.flatten
  apply List.map_congr_left
  intro i _
  show (List.map _ (List.range pts.length)).flatten = _
  rw [← List.flatMap_def]
  exact flatMap_if_singleton (List.range pts.length) _ _

theorem edgeCands_mem (d : ℕ) (pts : List (List α)) (p : ℕ × ℕ) :
    p ∈ edgeCands d pts ↔ p.1 < pts.length ∧ p.2 < pts.length ∧ p.1 ≠ p.2 ∧
      matchCount (nth pts p.1) (nth pts p.2) = d - 1 := by
  obtain ⟨i, j⟩ := p
  unfold edgeCands
  simp only [List.mem_flatMap, List.mem_map, List.mem_filter, List.mem_range]
  constructor
  · rintro ⟨i', hi', j', ⟨hj', hcond⟩, hEq⟩
    obtain ⟨rfl, rfl⟩ : i' = i ∧ j' = j := by
      constructor
      · exact congrArg Prod.fst hEq
      · exact congrArg Prod.snd hEq
    rw [decide_eq_true_eq] at hcond
    exact ⟨hi', hj', hcond.1, hcond.2⟩
  · rintro ⟨hi, hj, hne, hm⟩
    exact ⟨i, hi, j, ⟨hj, by rw [decide_eq_true_eq]; exact ⟨hne, hm⟩⟩, rfl⟩

theorem edgeCands_nodup (d : ℕ) (pts : List (List α)) : (edgeCands d pts).Nodup := by
  unfold edgeCands
  rw [List.nodup_flatMap]
  constructor
  · intro i _
    apply List.Nodup.map
    · intro a b hab
      exact congrArg Prod.snd hab
    · exact List.Nodup.filter _ (List.nodup_range _)
  · apply List.Pairwise.imp _ (List.nodup_range pts.length)
    intro i j hij
    intro p hp hq
    rw [List.mem_map] at hp hq
    obtain ⟨x, _, rfl⟩ := hp
    obtain ⟨y, _, hxy⟩ := hq
    exact hij (congrArg Prod.fst hxy).symm

end EdgeGen

/-! ### Hamming-distance bookkeeping for cube vertices -/

/-- Number of bit positions below `d` at which `i` and `j` differ. -/
def hamming (d i j : ℕ) : ℕ :=
  ((Finset.range d).filter fun k => i.testBit k ≠ j.testBit k).card

theorem hamming_comm (d i j : ℕ) : hamming d i j = hamming d j i := by
  unfold hamming
  congr 1
  apply Finset.filter_congr
  intro k _
  exact ne_comm

theorem hamming_le (d i j : ℕ) : hamming d i j ≤ d := by
  calc hamming d i j ≤ (Finset.range d).card := Finset.card_filter_le _ _
  _ = d := Finset.card_range d

theorem hamming_self (d i : ℕ) : hamming d i i = 0 := by
  unfold hamming
  rw [Finset.card_eq_zero, Finset.filter_eq_empty_iff]
  intro k _
  simp

theorem countP_range_card (n : ℕ) (p : ℕ → Prop) [DecidablePred p] :
    (List.range n).countP (fun a => decide (p a)) = ((Finset.range n).filter p).card := by
  rw [List.countP_eq_length_filter]
  rfl

theorem matchCount_bits (d i j : ℕ) :
    matchCount (bitsOfWidth d i) (bitsOfWidth d j) = d - hamming d i j := by
  unfold matchCount
  rw [bitsOfWidth_length]
  have hcong : ∀ ii ∈ List.range d,
      (decide ((bitsOfWidth d i)[ii]? = (bitsOfWidth d j)[ii]?))
        = decide (i.testBit (d - 1 - ii) = j.testBit (d - 1 - ii)) := by
    intro ii hii
    rw [List.mem_range] at hii
    unfold bitsOfWidth
    rw [List.getElem?_map, List.getElem?_map, List.getElem?_range hii]
    simp
  rw [List.countP_congr fun ii hii => by rw [hcong ii hii]]
  rw [countP_range_card d fun ii => i.testBit (d - 1 - ii) = j.testBit (d - 1 - ii)]
  have hbij : ((Finset.range d).filter fun ii =>
        i.testBit (d - 1 - ii) = j.testBit (d - 1 - ii)).card
      = ((Finset.range d).filter fun k => i.testBit k = j.testBit k).card := by
    apply Finset.card_nbij' (fun ii => d - 1 - ii) (fun k => d - 1 - k)
    · intro a ha
      rw [Finset.mem_filter, Finset.mem_range] at ha ⊢
      exact ⟨by omega, ha.2⟩
    · intro a ha
      rw [Finset.mem_filter, Finset.mem_range] at ha ⊢
      refine ⟨by omega, ?_⟩
      rw [show d - 1 - (d - 1 - a) = a by omega]
      exact ha.2
    · intro a ha
      rw [Finset.mem_filter, Finset.mem_range] at ha
      omega
    · intro a ha
      rw [Finset.mem_filter, Finset.mem_range] at ha
      omega
  rw [hbij]
  have hsplit : ((Finset.range d).filter fun k => i.testBit k = j.testBit k).card
      + ((Finset.range d).filter fun k => ¬ i.testBit k = j.testBit k).card
      = (Finset.range d).card :=
    Finset.filter_card_add_filter_neg_card_eq_card fun k => i.testBit k = j.testBit k
  rw [Finset.card_range] at hsplit
  have hneg : ((Finset.range d).filter fun k => ¬ i.testBit k = j.testBit k).card
      = hamming d i j := rfl
  omega

theorem xor_two_pow_lt (d i k : ℕ) (hi : i < 2 ^ d) (hk : k < d) : i ^^^ 2 ^ k < 2 ^ d :=
  Nat.xor_lt_two_pow hi (Nat.pow_lt_pow_right (by norm_num) hk)

theorem hamming_xor_two_pow (d i k : ℕ) (hk : k < d) : hamming d i (i ^^^ 2 ^ k) = 1 := by
  unfold hamming
  rw [show ((Finset.range d).filter fun m => i.testBit m ≠ (i ^^^ 2 ^ k).testBit m) = {k} by
    ext m
    rw [Finset.mem_filter, Finset.mem_range, Finset.mem_singleton]
    constructor
    · rintro ⟨hm, hne⟩
      by_contra hmk
      apply hne
      rw [Nat.testBit_xor, Nat.testBit_two_pow_of_ne fun h => hmk h.symm]
      simp
    · rintro rfl
      refine ⟨hk, ?_⟩
      rw [Nat.testBit_xor, Nat.testBit_two_pow_self]
      simp]
  exact Finset.card_singleton k

theorem hamming_one_xor (d i j : ℕ) (hi : i < 2 ^ d) (hj : j < 2 ^ d)
    (h : hamming d i j = 1) : ∃ k < d, j = i ^^^ 2 ^ k := by
  unfold hamming at h
  rw [Finset.card_eq_one] at h
  obtain ⟨k, hk⟩ := h
  have hkmem : k ∈ (Finset.range d).filter fun m => i.testBit m ≠ j.testBit m := by
    rw [hk]
    exact Finset.mem_singleton_self k
  rw [Finset.mem_filter, Finset.mem_range] at hkmem
  refine ⟨k, hkmem.1, ?_⟩
  apply Nat.eq_of_testBit_eq
  intro m
  by_cases hm : m < d
  · by_cases hmk : m = k
    · subst hmk
      rw [Nat.testBit_xor, Nat.testBit_two_pow_self]
      revert hkmem
      cases i.testBit m <;> cases j.testBit m <;> simp
    · have : m ∉ (Finset.range d).filter fun m => i.testBit m ≠ j.testBit m := by
        rw [hk, Finset.mem_singleton]
        exact hmk
      rw [Finset.mem_filter, Finset.mem_range] at this
      push_neg at this
      have heq := this hm
      rw [Nat.testBit_xor, Nat.testBit_two_pow_of_ne fun h => hmk h.symm]
      revert heq
      cases i.testBit m <;> cases j.testBit m <;> simp
  · rw [Nat.testBit_lt_two_pow
      (lt_of_lt_of_le hj (Nat.pow_le_pow_right (by norm_num) (by omega)))]
    rw [Nat.testBit_lt_two_pow
      (lt_of_lt_of_le (xor_two_pow_lt d i k hi hkmem.1)
        (Nat.pow_le_pow_right (by norm_num) (by omega)))]

theorem card_hamming_one (d i : ℕ) (hi : i < 2 ^ d) :
    ((Finset.range (2 ^ d)).filter fun j => hamming d i j = 1).card = d := by
  rw [show ((Finset.range (2 ^ d)).filter fun j => hamming d i j = 1)
      = (Finset.range d).image fun k => i ^^^ 2 ^ k by
    ext j
    rw [Finset.mem_filter, Finset.mem_range, Finset.mem_image]
    constructor
    · rintro ⟨hj, hone⟩
      obtain ⟨k, hk, rfl⟩ := hamming_one_xor d i j hi hj hone
      exact ⟨k, Finset.mem_range.mpr hk, rfl⟩
    · rintro ⟨k, hk, rfl⟩
      rw [Finset.mem_range] at hk
      exact ⟨xor_two_pow_lt d i k hi hk, hamming_xor_two_pow d i k hk⟩]
  rw [Finset.card_image_of_injOn, Finset.card_range]
  intro a _ b _ hab
  have h2 : (2 : ℕ) ^ a = 2 ^ b := by
    have := congrArg (fun x => i ^^^ x) hab
    simpa [← Nat.xor_assoc] using this
  exact Nat.pow_right_injective (by norm_num) h2

/-! ### Claim C1: what the edge generator emits on the base vertex set -/

theorem cubePoints_mem_length (d : ℕ) (s : ℚ) (hd : 1 ≤ d) :
    ∀ p ∈ cubePointsGenerator d s, p.length = d := by
  intro p hp
  rw [cubePointsGenerator_eq_map d s hd] at hp
  rw [List.mem_map] at hp
  obtain ⟨bits, hbits, rfl⟩ := hp
  unfold cubeBits at hbits
  rw [List.mem_map] at hbits
  obtain ⟨i, _, rfl⟩ := hbits
  rw [List.length_map, bitsOfWidth_length]

theorem nth_cube_eq (d : ℕ) (s : ℚ) (hd : 1 ≤ d) (i : ℕ) (hi : i < 2 ^ d) :
    nth (cubePointsGenerator d s) i = (bitsOfWidth d i).map (scaleBit s) :=
  cubePointsGenerator_getD d s hd i hi

theorem matchCount_cube (d : ℕ) (s : ℚ) (hd : 1 ≤ d) (hs : s ≠ 0)
    (i j : ℕ) (hi : i < 2 ^ d) (hj : j < 2 ^ d) :
    matchCount (nth (cubePointsGenerator d s) i) (nth (cubePointsGenerator d s) j)
      = d - hamming d i j := by
  rw [nth_cube_eq d s hd i hi, nth_cube_eq d s hd j hj,
    matchCount_map (scaleBit s) (scaleBit_injective s hs), matchCount_bits]

theorem edge_mem_iff_hamming (d : ℕ) (s : ℚ) (hd : 2 ≤ d) (hs : s ≠ 0) (i j : ℕ) :
    (i, j) ∈ edgeCands d (cubePointsGenerator d s) ↔
      i < 2 ^ d ∧ j < 2 ^ d ∧ hamming d i j = 1 := by
  rw [edgeCands_mem, cubePointsGenerator_length]
  constructor
  · rintro ⟨hi, hj, hne, hm⟩
    rw [matchCount_cube d s (by omega) hs i j hi hj] at hm
    have := hamming_le d i j
    refine ⟨hi, hj, by omega⟩
  · rintro ⟨hi, hj, hone⟩
    have hne : i ≠ j := by
      rintro rfl
      rw [hamming_self] at hone
      exact one_ne_zero hone.symm
    refine ⟨hi, hj, hne, ?_⟩
    rw [matchCount_cube d s (by omega) hs i j hi hj, hone]

theorem edgeCands_cube_length (d : ℕ) (s : ℚ) (hd : 2 ≤ d) (hs : s ≠ 0) :
    (edgeCands d (cubePointsGenerator d s)).length = 2 ^ d * d := by
  unfold edgeCands
  rw [List.length_flatMap]
  have hmap : ∀ i ∈ List.range (cubePointsGenerator d s).length,
      (List.length ∘ fun i =>
        (List.filter (fun j => decide (i ≠ j ∧
            matchCount (nth (cubePointsGenerator d s) i)
              (nth (cubePointsGenerator d s) j) = d - 1))
          (List.range (cubePointsGenerator d s).length)).map fun j => (i, j)) i = d := by
    intro i hi
    rw [List.mem_range, cubePointsGenerator_length] at hi
    show (List.map _ _).length = d
    rw [List.length_map, ← List.countP_eq_length_filter, cubePointsGenerator_length]
    have hcong : ∀ j ∈ List.range (2 ^ d),
        decide (i ≠ j ∧ matchCount (nth (cubePointsGenerator d s) i)
            (nth (cubePointsGenerator d s) j) = d - 1)
          = decide (hamming d i j = 1) := by
      intro j hj
      rw [List.mem_range] at hj
      rw [decide_eq_decide]
      rw [matchCount_cube d s (by omega) hs i j hi hj]
      constructor
      · rintro ⟨hne, hm⟩
        have := hamming_le d i j
        omega
      · intro hone
        have hne : i ≠ j := by
          rintro rfl
          rw [hamming_self] at hone
          exact one_ne_zero hone.symm
        rw [hone]
        exact ⟨hne, rfl⟩
    rw [List.countP_congr fun j hj => by rw [hcong j hj]]
    rw [countP_range_card (2 ^ d) fun j => hamming d i j = 1]
    exact card_hamming_one d i hi
  rw [List.map_congr_left hmap]
  rw [show List.map (fun _ => d) (List.range (cubePointsGenerator d s).length)
      = List.replicate (List.range (cubePointsGenerator d s).length).length d from
    List.map_const _ d]
  rw [List.sum_replicate, List.length_range, cubePointsGenerator_length, smul_eq_mul]

/-- **C1, counterexample.** At `D = 2` (base vertices of size 1) the edge
generator emits 8 ordered pairs, not the claimed `D * 2 ^ (D-1) = 4`
unordered edges: every edge appears once per orientation. -/
theorem edge_gen_count_fails : ∃ E, edgeGenerator 2 (cubePointsGenerator 2 1) = .ok E ∧
    E.length = 8 ∧ ¬ E.length = 2 * 2 ^ (2 - 1) := by
  refine ⟨edgeCands 2 (cubePointsGenerator 2 1), ?_, ?_, ?_⟩
  · exact edgeGenerator_ok 2 2 _ (cubePoints_mem_length 2 1 (by norm_num))
  · rw [edgeCands_cube_length 2 1 (by norm_num) (by norm_num)]
    norm_num
  · rw [edgeCands_cube_length 2 1 (by norm_num) (by norm_num)]
    norm_num

/-- **C1 (amended).** For every `D ≥ 2` and size `s ≠ 0`, the edge generator
on the base vertex set succeeds and emits exactly the ordered pairs `(i, j)`,
`i ≠ j`, whose points differ in exactly one coordinate; each ordered pair is
emitted exactly once, so each unordered edge appears exactly twice (once per
orientation, and the drawing caller draws both), for a total of
`2 * D * 2 ^ (D-1)` emitted pairs. -/
theorem edge_generator_spec (d : ℕ) (s : ℚ) (hd : 2 ≤ d) (hs : s ≠ 0) :
    ∃ E, edgeGenerator d (cubePointsGenerator d s) = .ok E ∧
      (∀ p : ℕ × ℕ, p ∈ E ↔ p.1 < 2 ^ d ∧ p.2 < 2 ^ d ∧ p.1 ≠ p.2 ∧
        diffCount (nth (cubePointsGenerator d s) p.1)
          (nth (cubePointsGenerator d s) p.2) = 1) ∧
      E.Nodup ∧
      (∀ i j : ℕ, (i, j) ∈ E → (j, i) ∈ E) ∧
      E.length = 2 * (d * 2 ^ (d - 1)) := by
  refine ⟨edgeCands d (cubePointsGenerator d s),
    edgeGenerator_ok d d _ (cubePoints_mem_length d s (by omega)), ?_, ?_, ?_, ?_⟩
  · rintro ⟨i, j⟩
    dsimp only
    rw [edge_mem_iff_hamming d s hd hs i j]
    constructor
    · rintro ⟨hi, hj, hone⟩
      have hne : i ≠ j := by
        rintro rfl
        rw [hamming_self] at hone
        exact one_ne_zero hone.symm
      refine ⟨hi, hj, hne, ?_⟩
      have hmc := matchCount_cube d s (by omega) hs i j hi hj
      rw [hone] at hmc
      have hadd := matchCount_add_diffCount (nth (cubePointsGenerator d s) i)
        (nth (cubePointsGenerator d s) j)
      rw [nth_length d _ (cubePoints_mem_length d s (by omega)) i
        (by rw [cubePointsGenerator_length]; exact hi)] at hadd
      omega
    · rintro ⟨hi, hj, hne, hdiff⟩
      refine ⟨hi, hj, ?_⟩
      have hmc := matchCount_cube d s (by omega) hs i j hi hj
      have hadd := matchCount_add_diffCount (nth (cubePointsGenerator d s) i)
        (nth (cubePointsGenerator d s) j)
      rw [nth_length d _ (cubePoints_mem_length d s (by omega)) i
        (by rw [cubePointsGenerator_length]; exact hi)] at hadd
      have hle := hamming_le d i j
      omega
  · exact edgeCands_nodup d _
  · intro i j hij
    rw [edge_mem_iff_hamming d s hd hs] at hij ⊢
    obtain ⟨hi, hj, hone⟩ := hij
    rw [hamming_comm] at hone
    exact ⟨hj, hi, hone⟩
  · rw [edgeCands_cube_length d s hd hs]
    have h2 : (2 : ℕ) ^ d = 2 * 2 ^ (d - 1) := by
      rw [← pow_succ']
      congr 1
      omega
    rw [h2]
    ring

/-- Witness for the amended C1 at `D = 2`, `s = 1`. -/
theorem edge_generator_spec_witness :
    (2 ≤ 2) ∧ ((1 : ℚ) ≠ 0) ∧
    (∃ E, edgeGenerator 2 (cubePointsGenerator 2 1) = .ok E ∧
      (∀ p : ℕ × ℕ, p ∈ E ↔ p.1 < 2 ^ 2 ∧ p.2 < 2 ^ 2 ∧ p.1 ≠ p.2 ∧
        diffCount (nth (cubePointsGenerator 2 1) p.1)
          (nth (cubePointsGenerator 2 1) p.2) = 1) ∧
      E.Nodup ∧
      (∀ i j : ℕ, (i, j) ∈ E → (j, i) ∈ E) ∧
      E.length = 2 * (2 * 2 ^ (2 - 1))) :=
  ⟨by norm_num, by norm_num, edge_generator_spec 2 1 (by norm_num) (by norm_num)⟩

/-! ### The matrix module (matrix.js): init, mul, toPoint, and Point.toMatrix -/

/-- Embedding of `Matrix.init`: a rows-by-cols grid filled with one value. -/
def matInit (rows cols : ℕ) (fillValue : ℚ) : List (List ℚ) :=
  List.replicate rows (List.replicate cols fillValue)

/-- Coordinate access `p[j]`, 0 beyond the end (renderer call sites stay in
range). -/
def coord (p : List ℚ) (j : ℕ) : ℚ :=
  p.getD j 0

/-- Entry access `m[i][j]`, 0 beyond the ends. -/
def entry (m : List (List ℚ)) (i j : ℕ) : ℚ :=
  coord (nth m i) j

/-- The assignment `m[i][j] = v` (in range at every renderer call site). -/
def setEntry (m : List (List ℚ)) (i j : ℕ) (v : ℚ) : List (List ℚ) :=
  m.set i ((nth m i).set j v)

/-- The pure triple-loop product of `Matrix.mul` (rows of `a` by columns of
`b`, summing over the columns of `a`); the guard and error behaviour of the
source function are modelled in full by `jsMul` below, and the renderer call
sites never reach the error path. -/
def matMul (a b : List (List ℚ)) : List (List ℚ) :=
  (List.range a.length).map fun i =>
    (List.range (nth b 0).length).map fun j =>
      ∑ k in Finset.range (nth a 0).length, entry a i k * entry b k j

/-- Embedding of `Matrix.toPoint`: first column of a vertical matrix. -/
def matToPoint (m : List (List ℚ)) : List ℚ :=
  m.map fun row => coord row 0

/-- Embedding of `Point.toMatrix`: each coordinate becomes a one-entry row. -/
def pointToMatrix (p : List ℚ) : List (List ℚ) :=
  p.map fun x => [x]

/-- `m` is a rectangular `r` by `c` matrix. -/
def IsRect (m : List (List ℚ)) (r c : ℕ) : Prop :=
  m.length = r ∧ ∀ row ∈ m, row.length = c

theorem matInit_rect (r c : ℕ) (v : ℚ) : IsRect (matInit r c v) r c := by
  constructor
  · simp [matInit]
  · intro row hrow
    unfold matInit at hrow
    rw [List.eq_of_mem_replicate hrow]
    simp

theorem coord_eq_getElem (p : List ℚ) (j : ℕ) (hj : j < p.length) : coord p j = p[j] := by
  unfold coord
  rw [List.getD_eq_getElem?_getD, List.getElem?_eq_getElem hj]
  rfl

theorem nth_rect (m : List (List ℚ)) (r c : ℕ) (h : IsRect m r c) (i : ℕ) (hi : i < r) :
    (nth m i).length = c := by
  apply nth_length c m h.2 i
  rw [h.1]
  exact hi

theorem matToPoint_length (m : List (List ℚ)) : (matToPoint m).length = m.length := by
  simp [matToPoint]

theorem pointToMatrix_rect (p : List ℚ) : IsRect (pointToMatrix p) p.length 1 := by
  constructor
  · simp [pointToMatrix]
  · intro row hrow
    rw [pointToMatrix, List.mem_map] at hrow
    obtain ⟨x, _, rfl⟩ := hrow
    rfl

theorem matToPoint_pointToMatrix (p : List ℚ) : matToPoint (pointToMatrix p) = p := by
  unfold matToPoint pointToMatrix
  rw [List.map_map]
  apply List.map_id''
  intro x
  rfl

theorem nth_map_range (n : ℕ) (f : ℕ → List ℚ) (i : ℕ) (hi : i < n) :
    nth ((List.range n).map f) i = f i := by
  unfold nth
  rw [List.getD_eq_getElem?_getD, List.getElem?_map, List.getElem?_range hi]
  rfl

theorem coord_map_range (n : ℕ) (g : ℕ → ℚ) (j : ℕ) (hj : j < n) :
    coord ((List.range n).map g) j = g j := by
  unfold coord
  rw [List.getD_eq_getElem?_getD, List.getElem?_map, List.getElem?_range hj]
  rfl

theorem matMul_rect (a b : List (List ℚ)) :
    IsRect (matMul a b) a.length (nth b 0).length := by
  constructor
  · simp [matMul]
  · intro row hrow
    rw [matMul, List.mem_map] at hrow
    obtain ⟨i, _, rfl⟩ := hrow
    simp

theorem entry_matMul (a b : List (List ℚ)) (i j : ℕ)
    (hi : i < a.length) (hj : j < (nth b 0).length) :
    entry (matMul a b) i j
      = ∑ k in Finset.range (nth a 0).length, entry a i k * entry b k j := by
  unfold entry matMul
  rw [nth_map_range _ _ i hi]
  rw [coord_map_range _ _ j hj]
  rfl

theorem matrix_ext (m₁ m₂ : List (List ℚ)) (r c : ℕ)
    (h₁ : IsRect m₁ r c) (h₂ : IsRect m₂ r c)
    (h : ∀ i < r, ∀ j < c, entry m₁ i j = entry m₂ i j) : m₁ = m₂ := by
  apply List.ext_getElem
  · rw [h₁.1, h₂.1]
  · intro i hi₁ hi₂
    have hir : i < r := by rw [← h₁.1]; exact hi₁
    apply List.ext_getElem
    · rw [h₁.2 _ (List.getElem_mem hi₁), h₂.2 _ (List.getElem_mem hi₂)]
    · intro j hj₁ hj₂
      have hjc : j < c := by rw [← h₁.2 _ (List.getElem_mem hi₁)]; exact hj₁
      have e₁ : entry m₁ i j = m₁[i][j] := by
        unfold entry
        rw [nth_eq_getElem m₁ i hi₁, coord_eq_getElem _ _ hj₁]
      have e₂ : entry m₂ i j = m₂[i][j] := by
        unfold entry
        rw [nth_eq_getElem m₂ i hi₂, coord_eq_getElem _ _ hj₂]
      rw [← e₁, ← e₂]
      exact h i hir j hjc

/-! ### Identity matrices and the algebra of the list-level product -/

/-- The identity matrix built the way each rotation callback builds it:
`Matrix.init(d, d)` followed by the diagonal loop `matrix[k][k] = 1`. -/
def identityLoop (d : ℕ) : List (List ℚ) :=
  (List.range d).foldl (fun m k => setEntry m k k 1) (matInit d d 0)

/-- The identity matrix in closed form. -/
def idMat (d : ℕ) : List (List ℚ) :=
  (List.range d).map fun i => (List.range d).map fun j => if i = j then 1 else 0

theorem idMat_rect (d : ℕ) : IsRect (idMat d) d d := by
  constructor
  · simp [idMat]
  · intro row hrow
    rw [idMat, List.mem_map] at hrow
    obtain ⟨i, _, rfl⟩ := hrow
    simp

theorem entry_idMat (d i j : ℕ) (hi : i < d) (hj : j < d) :
    entry (idMat d) i j = if i = j then 1 else 0 := by
  unfold entry idMat
  rw [nth_map_range _ _ i hi, coord_map_range _ _ j hj]

theorem setEntry_rect (m : List (List ℚ)) (r c : ℕ) (h : IsRect m r c) (i j : ℕ) (v : ℚ) :
    IsRect (setEntry m i j v) r c := by
  unfold setEntry
  by_cases hi : i < m.length
  · constructor
    · rw [List.length_set, h.1]
    · intro row hrow
      rcases List.mem_or_eq_of_mem_set hrow with hmem | rfl
      · exact h.2 row hmem
      · rw [List.length_set, nth_eq_getElem m i hi]
        exact h.2 _ (List.getElem_mem hi)
  · rw [List.set_eq_of_length_le (by omega)]
    exact h

theorem entry_setEntry (m : List (List ℚ)) (r c i j : ℕ) (v : ℚ) (h : IsRect m r c)
    (hi : i < r) (hj : j < c) (a b : ℕ) :
    entry (setEntry m i j v) a b = if a = i ∧ b = j then v else entry m a b := by
  have him : i < m.length := by rw [h.1]; exact hi
  have hjm : j < (nth m i).length := by rw [nth_rect m r c h i hi]; exact hj
  by_cases hai : a = i
  · subst hai
    have hrow : nth (setEntry m a j v) a = (nth m a).set j v := by
      unfold setEntry nth
      rw [List.getD_eq_getElem?_getD, List.getElem?_set_self him, Option.getD_some]
    by_cases hbj : b = j
    · subst hbj
      rw [if_pos ⟨rfl, rfl⟩]
      unfold entry
      rw [hrow]
      unfold coord
      rw [List.getD_eq_getElem?_getD, List.getElem?_set_self hjm, Option.getD_some]
    · rw [if_neg (by rintro ⟨hh1, hh2⟩; exact hbj hh2)]
      unfold entry
      rw [hrow]
      unfold coord
      rw [List.getD_eq_getElem?_getD, List.getElem?_set_ne (fun hh => hbj hh.symm),
        ← List.getD_eq_getElem?_getD]
  · rw [if_neg (by rintro ⟨hh1, hh2⟩; exact hai hh1)]
    unfold entry nth setEntry
    rw [List.getD_eq_getElem?_getD, List.getElem?_set_ne (fun hh => hai hh.symm),
      ← List.getD_eq_getElem?_getD]

theorem identityLoop_eq (d : ℕ) : identityLoop d = idMat d := by
  have main : ∀ (l : List ℕ) (m : List (List ℚ)), IsRect m d d → (∀ k ∈ l, k < d) →
      IsRect (l.foldl (fun m k => setEntry m k k 1) m) d d ∧
      (∀ a < d, ∀ b < d, entry (l.foldl (fun m k => setEntry m k k 1) m) a b
        = if a = b ∧ a ∈ l then 1 else entry m a b) := by
    intro l
    induction l with
    | nil =>
      intro m hm _
      refine ⟨hm, ?_⟩
      intro a _ b _
      simp
    | cons k l ih =>
      intro m hm hmem
      have hk : k < d := hmem k (by simp)
      have hstep : IsRect (setEntry m k k 1) d d := setEntry_rect m d d hm k k 1
      obtain ⟨hrect, hent⟩ := ih (setEntry m k k 1) hstep fun x hx => hmem x (by simp [hx])
      refine ⟨hrect, ?_⟩
      intro a ha b hb
      rw [List.foldl_cons, hent a ha b hb, entry_setEntry m d d k k 1 hm hk hk a b]
      by_cases hab : a = b
      · subst hab
        by_cases hal : a ∈ l
        · simp [hal]
        · by_cases hak : a = k
          · subst hak
            simp
          · simp [hal, hak]
      · simp only [hab, false_and, if_false]
        have : ¬ (a = k ∧ b = k) := by
          rintro ⟨rfl, rfl⟩
          exact hab rfl
        simp [this]
  obtain ⟨hrect, hent⟩ := main (List.range d) (matInit d d 0) (matInit_rect d d 0)
    (fun k hk => List.mem_range.mp hk)
  apply matrix_ext _ _ d d hrect (idMat_rect d)
  intro i hi j hj
  rw [hent i hi j hj, entry_idMat d i j hi hj]
  have hinit : entry (matInit d d 0) i j = 0 := by
    unfold entry matInit nth
    rw [List.getD_eq_getElem?_getD,
      List.getElem?_eq_getElem (by rw [List.length_replicate]; exact hi)]
    rw [List.getElem_replicate]
    unfold coord
    rw [Option.getD_some, List.getD_eq_getElem?_getD,
      List.getElem?_eq_getElem (by rw [List.length_replicate]; exact hj),
      List.getElem_replicate]
    rfl
  rw [hinit]
  by_cases hij : i = j
  · simp [hij, List.mem_range.mpr hj]
  · simp [hij]

theorem matMul_id_left (d c : ℕ) (v : List (List ℚ)) (hv : IsRect v d c) (hd : 0 < d)
    (_hc : 0 < c) : matMul (idMat d) v = v := by
  have hrect : IsRect (matMul (idMat d) v) d c := by
    have := matMul_rect (idMat d) v
    rw [(idMat_rect d).1, nth_rect v d c hv 0 hd] at this
    exact this
  apply matrix_ext _ _ d c hrect hv
  intro i hi j hj
  rw [entry_matMul _ _ i j (by rw [(idMat_rect d).1]; exact hi)
    (by rw [nth_rect v d c hv 0 hd]; exact hj)]
  rw [nth_rect (idMat d) d d (idMat_rect d) 0 hd]
  rw [Finset.sum_congr rfl fun k hk => by
    rw [entry_idMat d i k hi (Finset.mem_range.mp hk)]]
  rw [show (∑ k in Finset.range d, (if i = k then (1 : ℚ) else 0) * entry v k j)
      = ∑ k in Finset.range d, if i = k then entry v k j else 0 from
    Finset.sum_congr rfl fun k _ => by by_cases hik : i = k <;> simp [hik]]
  rw [Finset.sum_ite_eq (Finset.range d) i fun k => entry v k j]
  simp [Finset.mem_range.mpr hi]

theorem matMul_id_right (d r : ℕ) (m : List (List ℚ)) (hm : IsRect m r d) (hd : 0 < d) :
    matMul m (idMat d) = m := by
  have hrect : IsRect (matMul m (idMat d)) r d := by
    have := matMul_rect m (idMat d)
    rw [hm.1, nth_rect (idMat d) d d (idMat_rect d) 0 hd] at this
    exact this
  apply matrix_ext _ _ r d hrect hm
  intro i hi j hj
  rw [entry_matMul _ _ i j (by rw [hm.1]; exact hi)
    (by rw [nth_rect (idMat d) d d (idMat_rect d) 0 hd]; exact hj)]
  by_cases hr : 0 < r
  · rw [nth_rect m r d hm 0 hr]
    rw [Finset.sum_congr rfl fun k hk => by
      rw [entry_idMat d k j (Finset.mem_range.mp hk) hj]]
    rw [show (∑ k in Finset.range d, entry m i k * if k = j then 1 else 0)
        = ∑ k in Finset.range d, if k = j then entry m i k else 0 from
      Finset.sum_congr rfl fun k _ => by by_cases hkj : k = j <;> simp [hkj]]
    rw [Finset.sum_ite_eq' (Finset.range d) j fun k => entry m i k]
    simp [Finset.mem_range.mpr hj]
  · omega

theorem matMul_assoc (d₁ d₂ d₃ d₄ : ℕ) (a b c : List (List ℚ))
    (ha : IsRect a d₁ d₂) (hb : IsRect b d₂ d₃) (hc : IsRect c d₃ d₄)
    (h1 : 0 < d₁) (h2 : 0 < d₂) (h3 : 0 < d₃) :
    matMul (matMul a b) c = matMul a (matMul b c) := by
  have hab : IsRect (matMul a b) d₁ d₃ := by
    have := matMul_rect a b
    rw [ha.1, nth_rect b d₂ d₃ hb 0 h2] at this
    exact this
  have hbc : IsRect (matMul b c) d₂ d₄ := by
    have := matMul_rect b c
    rw [hb.1, nth_rect c d₃ d₄ hc 0 h3] at this
    exact this
  have habc : IsRect (matMul (matMul a b) c) d₁ d₄ := by
    have := matMul_rect (matMul a b) c
    rw [hab.1, nth_rect c d₃ d₄ hc 0 h3] at this
    exact this
  have habc' : IsRect (matMul a (matMul b c)) d₁ d₄ := by
    have := matMul_rect a (matMul b c)
    rw [ha.1, nth_rect (matMul b c) d₂ d₄ hbc 0 h2] at this
    exact this
  apply matrix_ext _ _ d₁ d₄ habc habc'
  intro i hi l hl
  have lhs_eq : entry (matMul (matMul a b) c) i l
      = ∑ j in Finset.range d₃, (∑ k in Finset.range d₂,
          entry a i k * entry b k j) * entry c j l := by
    rw [entry_matMul (matMul a b) c i l (by rw [hab.1]; exact hi)
      (by rw [nth_rect c d₃ d₄ hc 0 h3]; exact hl)]
    rw [nth_rect (matMul a b) d₁ d₃ hab 0 h1]
    apply Finset.sum_congr rfl
    intro j hj
    rw [entry_matMul a b i j (by rw [ha.1]; exact hi)
      (by rw [nth_rect b d₂ d₃ hb 0 h2]; exact Finset.mem_range.mp hj),
      nth_rect a d₁ d₂ ha 0 h1]
  have rhs_eq : entry (matMul a (matMul b c)) i l
      = ∑ k in Finset.range d₂, entry a i k * (∑ j in Finset.range d₃,
          entry b k j * entry c j l) := by
    rw [entry_matMul a (matMul b c) i l (by rw [ha.1]; exact hi)
      (by rw [nth_rect (matMul b c) d₂ d₄ hbc 0 h2]; exact hl)]
    rw [nth_rect a d₁ d₂ ha 0 h1]
    apply Finset.sum_congr rfl
    intro k hk
    rw [entry_matMul b c k l (by rw [hb.1]; exact Finset.mem_range.mp hk)
      (by rw [nth_rect c d₃ d₄ hc 0 h3]; exact hl),
      nth_rect b d₂ d₃ hb 0 h2]
  rw [lhs_eq, rhs_eq]
  rw [Finset.sum_congr rfl fun j (_ : j ∈ Finset.range d₃) =>
    Finset.sum_mul (Finset.range d₂) (fun k => entry a i k * entry b k j) (entry c j l)]
  rw [Finset.sum_comm]
  apply Finset.sum_congr rfl
  intro k _
  rw [Finset.mul_sum (Finset.range d₃) (fun j => entry b k j * entry c j l) (entry a i k)]
  apply Finset.sum_congr rfl
  intro j _
  ring

/-! ### The rotation generator (`rotationsGenerator` in renderer.js) -/

/-- The matrix a single rotation callback returns for precomputed cosine and
sine values: identity (built by the diagonal loop) with the four plane
entries overwritten, in source order `[i][i]`, `[i][j]`, `[j][i]`, `[j][j]`. -/
def rotMat (dimension i j : ℕ) (cosv sinv : ℚ) : List (List ℚ) :=
  setEntry (setEntry (setEntry (setEntry
    (identityLoop dimension) i i cosv) i j (-sinv)) j i sinv) j j cosv

/-- The rotation matrix exactly as the claim words it: the `D` by `D` identity
except entries `[i][i] = [j][j] = cos`, `[i][j] = -sin`, `[j][i] = sin`. -/
def specRotMat (d i j : ℕ) (cosv sinv : ℚ) : List (List ℚ) :=
  (List.range d).map fun r => (List.range d).map fun c =>
    if r = i ∧ c = i then cosv
    else if r = i ∧ c = j then -sinv
    else if r = j ∧ c = i then sinv
    else if r = j ∧ c = j then cosv
    else if r = c then 1 else 0

theorem rotMat_rect (d i j : ℕ) (c s : ℚ) : IsRect (rotMat d i j c s) d d := by
  unfold rotMat
  apply setEntry_rect
  apply setEntry_rect
  apply setEntry_rect
  apply setEntry_rect
  rw [identityLoop_eq]
  exact idMat_rect d

theorem specRotMat_rect (d i j : ℕ) (c s : ℚ) : IsRect (specRotMat d i j c s) d d := by
  constructor
  · simp [specRotMat]
  · intro row hrow
    rw [specRotMat, List.mem_map] at hrow
    obtain ⟨r, _, rfl⟩ := hrow
    simp

theorem entry_specRotMat (d i j : ℕ) (c s : ℚ) (a b : ℕ) (ha : a < d) (hb : b < d) :
    entry (specRotMat d i j c s) a b =
      if a = i ∧ b = i then c
      else if a = i ∧ b = j then -s
      else if a = j ∧ b = i then s
      else if a = j ∧ b = j then c
      else if a = b then 1 else 0 := by
  unfold entry specRotMat
  rw [nth_map_range _ _ a ha, coord_map_range _ _ b hb]

theorem entry_rotMat (d i j : ℕ) (c s : ℚ) (hij : i < j) (hjd : j < d) (a b : ℕ)
    (ha : a < d) (hb : b < d) :
    entry (rotMat d i j c s) a b =
      if a = j ∧ b = j then c
      else if a = j ∧ b = i then s
      else if a = i ∧ b = j then -s
      else if a = i ∧ b = i then c
      else if a = b then 1 else 0 := by
  have hid : i < d := by omega
  have r0 : IsRect (identityLoop d) d d := by rw [identityLoop_eq]; exact idMat_rect d
  have r1 := setEntry_rect _ d d r0 i i c
  have r2 := setEntry_rect _ d d r1 i j (-s)
  have r3 := setEntry_rect _ d d r2 j i s
  unfold rotMat
  rw [entry_setEntry _ d d j j c r3 hjd hjd a b,
    entry_setEntry _ d d j i s r2 hjd hid a b,
    entry_setEntry _ d d i j (-s) r1 hid hjd a b,
    entry_setEntry _ d d i i c r0 hid hid a b]
  by_cases h1 : a = j ∧ b = j
  · simp [h1]
  · rw [if_neg h1, if_neg h1]
    by_cases h2 : a = j ∧ b = i
    · simp [h2]
    · rw [if_neg h2, if_neg h2]
      by_cases h3 : a = i ∧ b = j
      · simp [h3]
      · rw [if_neg h3, if_neg h3]
        by_cases h4 : a = i ∧ b = i
        · simp [h4]
        · rw [if_neg h4, if_neg h4, identityLoop_eq]
          exact entry_idMat d a b ha hb

theorem rotMat_eq_spec (d i j : ℕ) (c s : ℚ) (hij : i < j) (hjd : j < d) :
    rotMat d i j c s = specRotMat d i j c s := by
  apply matrix_ext _ _ d d (rotMat_rect d i j c s) (specRotMat_rect d i j c s)
  intro a ha b hb
  rw [entry_rotMat d i j c s hij hjd a b ha hb, entry_specRotMat d i j c s a b ha hb]
  have hne : i ≠ j := by omega
  by_cases hai : a = i <;> by_cases haj : a = j <;>
    by_cases hbi : b = i <;> by_cases hbj : b = j <;>
      simp_all

/-- The rotation matrix produced at angle zero is the identity, provided the
cosine function sends 0 to 1 and the sine function sends 0 to 0. -/
theorem rotMat_zero (d i j : ℕ) (hij : i < j) (hjd : j < d) :
    rotMat d i j 1 0 = idMat d := by
  apply matrix_ext _ _ d d (rotMat_rect d i j 1 0) (idMat_rect d)
  intro a ha b hb
  rw [entry_rotMat d i j 1 0 hij hjd a b ha hb, entry_idMat d a b ha hb]
  have hne : i ≠ j := by omega
  by_cases hai : a = i <;> by_cases haj : a = j <;>
    by_cases hbi : b = i <;> by_cases hbj : b = j <;>
      simp_all

/-- The axis-pair enumeration of `rotationsGenerator`: outer index `i` from 0
to `D - 2`, inner index `j` from `i + 1` to `D - 1`. -/
def planesList (dimension : ℕ) : List (ℕ × ℕ) :=
  (List.range (dimension - 1)).flatMap fun i =>
    (List.range' (i + 1) (dimension - (i + 1))).map fun j => (i, j)

/-- Embedding of `rotationsGenerator`: one callback per axis pair; a callback
takes the angle and returns the plane rotation matrix, evaluating the cosine
and sine library functions (passed here as parameters). -/
def rotationsGenerator (cosF sinF : ℚ → ℚ) (dimension : ℕ) :
    List (ℚ → List (List ℚ)) :=
  (List.range (dimension - 1)).flatMap fun i =>
    (List.range' (i + 1) (dimension - (i + 1))).map fun j =>
      fun theta => rotMat dimension i j (cosF theta) (sinF theta)

theorem rotationsGenerator_eq_map (cosF sinF : ℚ → ℚ) (d : ℕ) :
    rotationsGenerator cosF sinF d = (planesList d).map fun pr =>
      fun theta => rotMat d pr.1 pr.2 (cosF theta) (sinF theta) := by
  unfold rotationsGenerator planesList
  rw [List.map_flatMap]
  apply congrArg
  funext i
  rw [List.map_map]
  rfl

theorem planesList_mem (d : ℕ) : ∀ pr ∈ planesList d, pr.1 < pr.2 ∧ pr.2 < d := by
  intro pr hpr
  unfold planesList at hpr
  rw [List.mem_flatMap] at hpr
  obtain ⟨i, hi, hpr⟩ := hpr
  rw [List.mem_range] at hi
  rw [List.mem_map] at hpr
  obtain ⟨j, hj, rfl⟩ := hpr
  rw [List.mem_range'_1] at hj
  constructor
  · exact hj.1
  · have := hj.2
    omega

theorem planesList_length (d : ℕ) : (planesList d).length = d * (d - 1) / 2 := by
  unfold planesList
  rw [List.length_flatMap]
  have hlen : ∀ i ∈ List.range (d - 1),
      (List.length ∘ fun i =>
        (List.range' (i + 1) (d - (i + 1))).map fun j => (i, j)) i = d - 1 - i := by
    intro i hi
    show (List.map _ _).length = _
    rw [List.length_map, List.length_range']
    omega
  rw [List.map_congr_left hlen]
  have hsum : (List.map (fun i => d - 1 - i) (List.range (d - 1))).sum
      = ∑ i in Finset.range (d - 1), (d - 1 - i) := rfl
  rw [hsum]
  set n := d - 1 with hn
  have hrefl : ∑ i in Finset.range n, (n - i) = ∑ i in Finset.range n, (i + 1) := by
    rw [← Finset.sum_range_reflect fun i => i + 1]
    apply Finset.sum_congr rfl
    intro i hi
    rw [Finset.mem_range] at hi
    omega
  have hcong : ∑ i in Finset.range n, (n - 1 - i + 1)
      = ∑ i in Finset.range n, (n - i) := by
    apply Finset.sum_congr rfl
    intro i hi
    rw [Finset.mem_range] at hi
    omega
  have hgauss : (∑ i in Finset.range n, i) * 2 = n * (n - 1) :=
    Finset.sum_range_id_mul_two n
  have hplus : ∑ i in Finset.range n, (i + 1)
      = (∑ i in Finset.range n, i) + n := by
    rw [Finset.sum_add_distrib, Finset.sum_const, Finset.card_range, smul_eq_mul, mul_one]
  have htwo : (∑ i in Finset.range n, (n - i)) * 2 = n * (n + 1) := by
    rw [hrefl, hplus, add_mul, hgauss]
    cases n with
    | zero => rfl
    | succ m =>
      simp only [Nat.succ_sub_one]
      ring
  have hd2 : d * (d - 1) = n * (n + 1) ∨ d = 0 := by
    by_cases hd : d = 0
    · right
      exact hd
    · left
      rw [hn]
      have : d - 1 + 1 = d := by omega
      rw [mul_comm]
      rw [this]
  rcases hd2 with h | h
  · rw [h, ← htwo, Nat.mul_div_cancel _ (by norm_num)]
  · subst h
    simp [hn]

/-! ### The transform pipeline (`transformGenerator` in renderer.js) -/

/-- Embedding of the per-point body of `transformGenerator`.  The frame clock
enters as `elapsed` (seconds since setup), the mathematics library as
`cosF`, `sinF` and `pi_`; `theta` is `elapsed * speed * (pi/180)`; the
multiplier starts at 1 and grows by `offset / rotationLength` after each
plane, and a nonzero rotation offset scales the angle by the multiplier. -/
def transformPoint (cosF sinF : ℚ → ℚ) (pi_ : ℚ) (dimensions : ℕ)
    (speed offset elapsed : ℚ) (point : List ℚ) : List ℚ :=
  let theta := elapsed * speed * (pi_ / 180)
  let rotationLength : ℚ := ((dimensions * (dimensions - 1) / 2 : ℕ) : ℚ)
  let res := (rotationsGenerator cosF sinF dimensions).foldl
    (fun (st : List (List ℚ) × ℚ) rotation =>
      (matMul (if offset ≠ 0 then rotation (theta * st.2) else rotation theta) st.1,
        st.2 + offset / rotationLength))
    (pointToMatrix point, 1)
  matToPoint res.1

/-- Embedding of `transformGenerator` itself: the rotation applied to each
point of the stream. -/
def transformGenerator (cosF sinF : ℚ → ℚ) (pi_ : ℚ) (dimensions : ℕ)
    (speed offset elapsed : ℚ) (points : List (List ℚ)) : List (List ℚ) :=
  points.map (transformPoint cosF sinF pi_ dimensions speed offset elapsed)

/-- Modelled from the claim: the angle of plane number `k` (in enumeration
order) is `theta_base * (1 + k * offset / m)` for a nonzero offset and
`theta_base` otherwise. -/
def specTheta (thetaBase offset : ℚ) (m k : ℕ) : ℚ :=
  if offset = 0 then thetaBase else thetaBase * (1 + (k : ℚ) * offset / (m : ℚ))

/-- Modelled from the claim: the matrix product
`R_{m-1}(theta_{m-1}) * ... * R_0(theta_0)` over the plane enumeration. -/
def specRotProduct (cosF sinF : ℚ → ℚ) (d : ℕ) (thetaBase offset : ℚ) :
    List (List ℚ) :=
  (((planesList d).enum).map fun kpr => specRotMat d kpr.2.1 kpr.2.2
      (cosF (specTheta thetaBase offset (d * (d - 1) / 2) kpr.1))
      (sinF (specTheta thetaBase offset (d * (d - 1) / 2) kpr.1))).foldl
    (fun acc M => matMul M acc) (idMat d)

/-- Modelled from the claim: the rotated point is the product applied to the
point as a column matrix, with `theta_base = speed * elapsed * (pi/180)`. -/
def specTransformPoint (cosF sinF : ℚ → ℚ) (pi_ : ℚ) (d : ℕ)
    (speed offset elapsed : ℚ) (point : List ℚ) : List ℚ :=
  matToPoint (matMul
    (specRotProduct cosF sinF d (speed * elapsed * (pi_ / 180)) offset)
    (pointToMatrix point))

theorem matMul_rect' (a b : List (List ℚ)) (r k c : ℕ)
    (ha : IsRect a r k) (hb : IsRect b k c) (hk : 0 < k) : IsRect (matMul a b) r c := by
  have := matMul_rect a b
  rw [ha.1, nth_rect b k c hb 0 hk] at this
  exact this

theorem foldl_matMul_rect (d : ℕ) :
    ∀ (Ms : List (List (List ℚ))) (X : List (List ℚ)), (∀ M ∈ Ms, IsRect M d d) →
      IsRect X d d → 0 < d →
      IsRect (Ms.foldl (fun acc M => matMul M acc) X) d d := by
  intro Ms
  induction Ms with
  | nil =>
    intro X _ hX _
    exact hX
  | cons M Ms ih =>
    intro X hMs hX hd
    rw [List.foldl_cons]
    exact ih _ (fun N hN => hMs N (by simp [hN]))
      (matMul_rect' M X d d d (hMs M (by simp)) hX hd) hd

theorem foldl_matMul_factor (d : ℕ) (hd : 0 < d) :
    ∀ (Ms : List (List (List ℚ))), (∀ M ∈ Ms, IsRect M d d) →
      ∀ (c : ℕ) (X : List (List ℚ)), 0 < c → IsRect X d c →
      Ms.foldl (fun acc M => matMul M acc) X
        = matMul (Ms.foldl (fun acc M => matMul M acc) (idMat d)) X := by
  intro Ms
  induction Ms with
  | nil =>
    intro _ c X hc hX
    exact (matMul_id_left d c X hX hd hc).symm
  | cons M Ms ih =>
    intro hMs c X hc hX
    have hM : IsRect M d d := hMs M (by simp)
    have hMs' : ∀ N ∈ Ms, IsRect N d d := fun N hN => hMs N (by simp [hN])
    rw [List.foldl_cons, List.foldl_cons]
    rw [ih hMs' c (matMul M X) hc (matMul_rect' M X d d c hM hX hd)]
    rw [matMul_id_right d d M hM hd]
    rw [ih hMs' d M hd hM]
    rw [matMul_assoc d d d c _ M X
      (foldl_matMul_rect d Ms (idMat d) hMs' (idMat_rect d) hd) hM hX hd hd hd]

theorem foldl_congr_mem {γ M : Type} :
    ∀ (l : List γ) (f g : M → γ → M) (x : M),
      (∀ a ∈ l, ∀ m, f m a = g m a) → l.foldl f x = l.foldl g x := by
  intro l
  induction l with
  | nil =>
    intro f g x _
    rfl
  | cons a l ih =>
    intro f g x h
    rw [List.foldl_cons, List.foldl_cons, h a (by simp)]
    exact ih f g _ fun b hb m => h b (by simp [hb]) m

theorem fold_pair_enum (F : ℕ × ℕ → ℚ → List (List ℚ)) (δ : ℚ) :
    ∀ (l : List (ℕ × ℕ)) (k₀ : ℕ) (A : List (List ℚ)),
      (l.foldl (fun (st : List (List ℚ) × ℚ) pr =>
          (matMul (F pr st.2) st.1, st.2 + δ)) (A, 1 + (k₀ : ℚ) * δ)).1
      = (l.enumFrom k₀).foldl
          (fun acc kpr => matMul (F kpr.2 (1 + (kpr.1 : ℚ) * δ)) acc) A := by
  intro l
  induction l with
  | nil =>
    intro k₀ A
    rfl
  | cons pr l ih =>
    intro k₀ A
    rw [List.foldl_cons, List.enumFrom_cons, List.foldl_cons]
    have hstep : (1 + (k₀ : ℚ) * δ) + δ = 1 + ((k₀ + 1 : ℕ) : ℚ) * δ := by
      push_cast
      ring
    rw [hstep]
    exact ih (k₀ + 1) _

theorem fold_pair_enum_zero (F : ℕ × ℕ → ℚ → List (List ℚ)) (δ : ℚ)
    (l : List (ℕ × ℕ)) (A : List (List ℚ)) :
    (l.foldl (fun (st : List (List ℚ) × ℚ) pr =>
        (matMul (F pr st.2) st.1, st.2 + δ)) (A, 1)).1
    = l.enum.foldl (fun acc kpr => matMul (F kpr.2 (1 + (kpr.1 : ℚ) * δ)) acc) A := by
  have h := fold_pair_enum F δ l 0 A
  rw [show (1 + ((0 : ℕ) : ℚ) * δ) = 1 by push_cast; ring] at h
  rw [List.enum_eq_enumFrom]
  exact h

theorem enum_mem_planes (d : ℕ) (kpr : ℕ × ℕ × ℕ) (h : kpr ∈ (planesList d).enum) :
    kpr.2 ∈ planesList d := by
  obtain ⟨k, pr⟩ := kpr
  rw [List.enum_eq_enumFrom] at h
  have := List.mem_enumFrom h
  obtain ⟨-, hlt, heq⟩ := this
  rw [heq]
  exact List.getElem_mem (by omega)

/-- **C3 (claim).** For every `D ≥ 2`, point of length `D`, speed, offset
and elapsed time, the transformed point equals the matrix product
`R_{m-1}(theta_{m-1}) * ... * R_0(theta_0)` applied to the point as a column
matrix, where the `m = D(D-1)/2` planes are enumerated with `i` ascending
and `j` ascending from `i+1`, each `R_k` is the identity with the four plane
entries `cos`, `-sin`, `sin`, `cos`, `theta_base = speed * elapsed * (pi/180)`,
and `theta_k = theta_base * (1 + k * offset / m)` for a nonzero offset while
`theta_k = theta_base` when the offset is zero. -/
theorem rotation_transform_spec (cosF sinF : ℚ → ℚ) (pi_ : ℚ) (d : ℕ)
    (speed offset elapsed : ℚ) (p : List ℚ) (hd : 2 ≤ d) (hp : p.length = d) :
    transformPoint cosF sinF pi_ d speed offset elapsed p
      = specTransformPoint cosF sinF pi_ d speed offset elapsed p
    ∧ (planesList d).length = d * (d - 1) / 2 := by
  refine ⟨?_, planesList_length d⟩
  unfold transformPoint specTransformPoint
  dsimp only
  rw [rotationsGenerator_eq_map, List.foldl_map]
  rw [fold_pair_enum_zero
    (fun pr mult =>
      if offset ≠ 0 then rotMat d pr.1 pr.2 (cosF (elapsed * speed * (pi_ / 180) * mult))
        (sinF (elapsed * speed * (pi_ / 180) * mult))
      else rotMat d pr.1 pr.2 (cosF (elapsed * speed * (pi_ / 180)))
        (sinF (elapsed * speed * (pi_ / 180))))
    (offset / ((d * (d - 1) / 2 : ℕ) : ℚ)) (planesList d) (pointToMatrix p)]
  rw [foldl_congr_mem ((planesList d).enum) _
    (fun acc kpr => matMul (specRotMat d kpr.2.1 kpr.2.2
      (cosF (specTheta (speed * elapsed * (pi_ / 180)) offset (d * (d - 1) / 2) kpr.1))
      (sinF (specTheta (speed * elapsed * (pi_ / 180)) offset (d * (d - 1) / 2) kpr.1))) acc)
    (pointToMatrix p) ?_]
  · rw [← List.foldl_map (fun kpr : ℕ × ℕ × ℕ => specRotMat d kpr.2.1 kpr.2.2
      (cosF (specTheta (speed * elapsed * (pi_ / 180)) offset (d * (d - 1) / 2) kpr.1))
      (sinF (specTheta (speed * elapsed * (pi_ / 180)) offset (d * (d - 1) / 2) kpr.1)))
      (fun acc M => matMul M acc)]
    rw [foldl_matMul_factor d (by omega) _ ?_ 1 (pointToMatrix p) (by norm_num) ?_]
    · rfl
    · intro M hM
      rw [List.mem_map] at hM
      obtain ⟨kpr, _, rfl⟩ := hM
      exact specRotMat_rect d kpr.2.1 kpr.2.2 _ _
    · have := pointToMatrix_rect p
      rw [hp] at this
      exact this
  · intro kpr hkpr acc
    dsimp only
    obtain ⟨hlt, hltd⟩ := planesList_mem d kpr.2 (enum_mem_planes d kpr hkpr)
    have hangle : ∀ v : ℚ, rotMat d kpr.2.1 kpr.2.2 (cosF v) (sinF v)
        = specRotMat d kpr.2.1 kpr.2.2 (cosF v) (sinF v) := fun v =>
      rotMat_eq_spec d kpr.2.1 kpr.2.2 _ _ hlt hltd
    by_cases hoff : offset = 0
    · rw [if_neg (by simpa using hoff)]
      rw [hangle]
      unfold specTheta
      rw [if_pos hoff]
      rw [show elapsed * speed * (pi_ / 180) = speed * elapsed * (pi_ / 180) from by ring]
    · rw [if_pos (by simpa using hoff)]
      rw [hangle]
      unfold specTheta
      rw [if_neg hoff]
      rw [show elapsed * speed * (pi_ / 180) * (1 + (kpr.1 : ℚ)
          * (offset / ((d * (d - 1) / 2 : ℕ) : ℚ)))
        = speed * elapsed * (pi_ / 180) * (1 + (kpr.1 : ℚ)
          * offset / ((d * (d - 1) / 2 : ℕ) : ℚ)) from by ring]

/-- Witness for C3, at `D = 2`, unit parameters and point `[1, 2]`. -/
theorem rotation_transform_spec_witness :
    (2 ≤ 2) ∧ (([(1 : ℚ), 2]).length = 2) ∧
    (transformPoint (fun _ => 1) (fun _ => 0) 3 2 1 1 1 [1, 2]
        = specTransformPoint (fun _ => 1) (fun _ => 0) 3 2 1 1 1 [1, 2]
      ∧ (planesList 2).length = 2 * (2 - 1) / 2) :=
  ⟨by norm_num, by norm_num,
    rotation_transform_spec (fun _ => 1) (fun _ => 0) 3 2 1 1 1 [1, 2]
      (by norm_num) (by norm_num)⟩

/-! ### The projection pipeline (`projectionGenerator` in renderer.js) -/

/-- The diagonal matrix the projection step builds: `Matrix.init(n, n)`
followed by the loop `projectionMatrix[j][j] = r` over all row indices. -/
def diagLoop (n : ℕ) (r : ℚ) : List (List ℚ) :=
  (List.range n).foldl (fun m j => setEntry m j j r) (matInit n n 0)

/-- The same diagonal matrix in closed form. -/
def diagMat (n : ℕ) (r : ℚ) : List (List ℚ) :=
  (List.range n).map fun i => (List.range n).map fun j => if i = j then r else 0

theorem diagMat_rect (n : ℕ) (r : ℚ) : IsRect (diagMat n r) n n := by
  constructor
  · simp [diagMat]
  · intro row hrow
    rw [diagMat, List.mem_map] at hrow
    obtain ⟨i, _, rfl⟩ := hrow
    simp

theorem entry_diagMat (n : ℕ) (r : ℚ) (i j : ℕ) (hi : i < n) (hj : j < n) :
    entry (diagMat n r) i j = if i = j then r else 0 := by
  unfold entry diagMat
  rw [nth_map_range _ _ i hi, coord_map_range _ _ j hj]

theorem diagLoop_eq (n : ℕ) (r : ℚ) : diagLoop n r = diagMat n r := by
  have main : ∀ (l : List ℕ) (m : List (List ℚ)), IsRect m n n → (∀ k ∈ l, k < n) →
      IsRect (l.foldl (fun m k => setEntry m k k r) m) n n ∧
      (∀ a < n, ∀ b < n, entry (l.foldl (fun m k => setEntry m k k r) m) a b
        = if a = b ∧ a ∈ l then r else entry m a b) := by
    intro l
    induction l with
    | nil =>
      intro m hm _
      refine ⟨hm, ?_⟩
      intro a _ b _
      simp
    | cons k l ih =>
      intro m hm hmem
      have hk : k < n := hmem k (by simp)
      have hstep : IsRect (setEntry m k k r) n n := setEntry_rect m n n hm k k r
      obtain ⟨hrect, hent⟩ := ih (setEntry m k k r) hstep fun x hx => hmem x (by simp [hx])
      refine ⟨hrect, ?_⟩
      intro a ha b hb
      rw [List.foldl_cons, hent a ha b hb, entry_setEntry m n n k k r hm hk hk a b]
      by_cases hab : a = b
      · subst hab
        by_cases hal : a ∈ l
        · simp [hal]
        · by_cases hak : a = k
          · subst hak
            simp
          · simp [hal, hak]
      · simp only [hab, false_and, if_false]
        have : ¬ (a = k ∧ b = k) := by
          rintro ⟨rfl, rfl⟩
          exact hab rfl
        simp [this]
  obtain ⟨hrect, hent⟩ := main (List.range n) (matInit n n 0) (matInit_rect n n 0)
    (fun k hk => List.mem_range.mp hk)
  apply matrix_ext _ _ n n hrect (diagMat_rect n r)
  intro i hi j hj
  rw [hent i hi j hj, entry_diagMat n r i j hi hj]
  have hinit : entry (matInit n n 0) i j = 0 := by
    unfold entry matInit nth
    rw [List.getD_eq_getElem?_getD,
      List.getElem?_eq_getElem (by rw [List.length_replicate]; exact hi),
      List.getElem_replicate]
    unfold coord
    rw [Option.getD_some, List.getD_eq_getElem?_getD,
      List.getElem?_eq_getElem (by rw [List.length_replicate]; exact hj),
      List.getElem_replicate]
    rfl
  rw [hinit]
  by_cases hij : i = j
  · simp [hij, List.mem_range.mpr hj]
  · simp [hij]

theorem entry_pointToMatrix (p : List ℚ) (k : ℕ) :
    entry (pointToMatrix p) k 0 = coord p k := by
  by_cases hk : k < p.length
  · have h1 : nth (pointToMatrix p) k = [p[k]] := by
      unfold pointToMatrix
      rw [nth_eq_getElem _ k (by rw [List.length_map]; exact hk), List.getElem_map]
    unfold entry
    rw [h1, coord_eq_getElem p k hk]
    rfl
  · have h1 : nth (pointToMatrix p) k = [] := by
      unfold pointToMatrix nth
      rw [List.getD_eq_getElem?_getD, List.getElem?_eq_none (by rw [List.length_map]; omega)]
      rfl
    unfold entry
    rw [h1]
    show (0 : ℚ) = coord p k
    unfold coord
    rw [List.getD_eq_getElem?_getD, List.getElem?_eq_none (by omega)]
    rfl

/-- Multiplying a full-size diagonal matrix into a point-as-column scales
every coordinate. -/
theorem diag_mul_point (n : ℕ) (r : ℚ) (wp : List ℚ) (h : wp.length = n) :
    matToPoint (matMul (diagMat n r) (pointToMatrix wp)) = wp.map (fun x => r * x) := by
  rcases Nat.eq_zero_or_pos n with hn | hn
  · subst hn
    rw [List.length_eq_zero] at h
    subst h
    rfl
  · have hB : IsRect (pointToMatrix wp) n 1 := by
      have := pointToMatrix_rect wp
      rw [h] at this
      exact this
    apply List.ext_getElem
    · rw [List.length_map, h]
      show (List.map _ (matMul (diagMat n r) (pointToMatrix wp))).length = n
      rw [List.length_map, (matMul_rect' _ _ n n 1 (diagMat_rect n r) hB hn).1]
    · intro i hi₁ hi₂
      have hin : i < n := by
        revert hi₂
        rw [List.length_map, h]
        exact fun hh => hh
      have hlhs : (matToPoint (matMul (diagMat n r) (pointToMatrix wp)))[i]
          = entry (matMul (diagMat n r) (pointToMatrix wp)) i 0 := by
        show (List.map (fun row => coord row 0) _)[i] = _
        rw [List.getElem_map]
        unfold entry
        rw [nth_eq_getElem _ i (by
          rw [(matMul_rect' _ _ n n 1 (diagMat_rect n r) hB hn).1]
          exact hin)]
      rw [hlhs, List.getElem_map]
      rw [entry_matMul _ _ i 0 (by rw [(diagMat_rect n r).1]; exact hin)
        (by rw [nth_rect _ n 1 hB 0 hn]; norm_num)]
      rw [nth_rect _ n n (diagMat_rect n r) 0 hn]
      rw [Finset.sum_congr rfl fun k hk => by
        rw [entry_diagMat n r i k hin (Finset.mem_range.mp hk),
          entry_pointToMatrix wp k]]
      rw [show (∑ k in Finset.range n, (if i = k then r else 0) * coord wp k)
          = ∑ k in Finset.range n, if i = k then r * coord wp k else 0 from
        Finset.sum_congr rfl fun k _ => by by_cases hik : i = k <;> simp [hik]]
      rw [Finset.sum_ite_eq (Finset.range n) i fun k => r * coord wp k]
      rw [if_pos (Finset.mem_range.mpr hin)]
      rw [coord_eq_getElem wp i (by rw [h]; exact hin)]

/-- Embedding of the per-point body of `projectionGenerator` in the final
renderer: iterate the axis index from `point.length - 1` down to 2; at each
step build the full-size diagonal matrix (size `point.length`, the original
length) with diagonal `far / (far - newPoint[i])` and multiply it into the
whole working point, which is never truncated. -/
def projectPoint (farClippingPlane : ℚ) (point : List ℚ) : List ℚ :=
  ((List.range' 2 (point.length - 2)).reverse).foldl
    (fun newPoint i =>
      matToPoint (matMul
        (diagLoop point.length (farClippingPlane / (farClippingPlane - coord newPoint i)))
        (pointToMatrix newPoint)))
    point

/-- Embedding of `projectionGenerator`: the projection applied to each point. -/
def projectionGenerator (farClippingPlane : ℚ) (points : List (List ℚ)) :
    List (List ℚ) :=
  points.map (projectPoint farClippingPlane)

/-- Modelled from the spec and claim C4: the same iteration, but at each step
the diagonal matrix has the size `i` of the restriction and is multiplied by
the working point restricted to its first `i` coordinates, so the working
point shrinks to length 2. -/
def specProjectPoint (farClippingPlane : ℚ) (point : List ℚ) : List ℚ :=
  ((List.range' 2 (point.length - 2)).reverse).foldl
    (fun wp i =>
      matToPoint (matMul
        (diagMat i (farClippingPlane / (farClippingPlane - coord wp i)))
        (pointToMatrix (wp.take i))))
    point

theorem coord_take (c : List ℚ) (n j : ℕ) (hj : j < n) :
    coord (c.take n) j = coord c j := by
  unfold coord
  rw [List.getD_eq_getElem?_getD, List.getD_eq_getElem?_getD, List.getElem?_take,
    if_pos hj]

/-- The working points of the untruncated (code) and truncated (spec)
projection loops stay related by a `take`: walking the axis list
`[t+1, ..., 2]`, the spec state is the first `t + 2` coordinates of the code
state, and the code state keeps its full length. -/
theorem proj_fold_pair (L : ℕ) (far : ℚ) :
    ∀ (t : ℕ) (c : List ℚ), c.length = L → t + 2 ≤ L →
      (((List.range' 2 t).reverse).foldl
          (fun wp i => matToPoint (matMul
            (diagMat i (far / (far - coord wp i))) (pointToMatrix (wp.take i))))
          (c.take (t + 2))
        = (((List.range' 2 t).reverse).foldl
            (fun newPoint i => matToPoint (matMul
              (diagLoop L (far / (far - coord newPoint i))) (pointToMatrix newPoint)))
            c).take 2)
      ∧ (((List.range' 2 t).reverse).foldl
          (fun newPoint i => matToPoint (matMul
            (diagLoop L (far / (far - coord newPoint i))) (pointToMatrix newPoint)))
          c).length = L := by
  intro t
  induction t with
  | zero =>
    intro c hc _
    exact ⟨rfl, hc⟩
  | succ t ih =>
    intro c hc hle
    have hconcat : List.range' 2 (t + 1) = List.range' 2 t ++ [2 + t] := by
      rw [List.range'_concat 2 t]
      simp
    rw [hconcat, List.reverse_append]
    simp only [List.reverse_cons, List.reverse_nil, List.nil_append, List.singleton_append]
    rw [List.foldl_cons, List.foldl_cons]
    have hcode : matToPoint (matMul (diagLoop L (far / (far - coord c (2 + t))))
        (pointToMatrix c)) = c.map (fun x => (far / (far - coord c (2 + t))) * x) := by
      rw [diagLoop_eq]
      exact diag_mul_point L _ c hc
    have hcoordtake : coord (c.take (t + 1 + 2)) (2 + t) = coord c (2 + t) :=
      coord_take c (t + 1 + 2) (2 + t) (by omega)
    have hspec : matToPoint (matMul
        (diagMat (2 + t) (far / (far - coord (c.take (t + 1 + 2)) (2 + t))))
        (pointToMatrix ((c.take (t + 1 + 2)).take (2 + t))))
        = (c.map (fun x => (far / (far - coord c (2 + t))) * x)).take (t + 2) := by
      rw [hcoordtake, List.take_take]
      rw [show (2 + t) ⊓ (t + 1 + 2) = 2 + t from by omega]
      rw [diag_mul_point (2 + t) _ (c.take (2 + t)) (by rw [List.length_take]; omega)]
      rw [List.map_take]
      rw [show 2 + t = t + 2 from by omega]
    rw [hcode, hspec]
    exact (ih (c.map fun x => (far / (far - coord c (2 + t))) * x)
      (by rw [List.length_map]; exact hc) (by omega))

/-- **C4 (amended).** The projection of the final renderer walks the axis
indices from `D - 1` down to 2 (never 0 or 1), computing
`r = far / (far - n)` from the same coordinate the spec names, but the
diagonal matrix always has the full original size and the working point is
never truncated: the output keeps all `D` coordinates, and its first two
coordinates agree with the restricted procedure of the claim. -/
theorem projection_spec (far : ℚ) (p : List ℚ) :
    (projectPoint far p).length = p.length ∧
    (projectPoint far p).take 2 = (specProjectPoint far p).take 2 ∧
    ∀ i ∈ (List.range' 2 (p.length - 2)).reverse, 2 ≤ i ∧ i < p.length := by
  have hidx : ∀ i ∈ (List.range' 2 (p.length - 2)).reverse, 2 ≤ i ∧ i < p.length := by
    intro i hi
    rw [List.mem_reverse, List.mem_range'_1] at hi
    omega
  by_cases hL : 2 ≤ p.length
  · obtain ⟨hspec, hlen⟩ := proj_fold_pair p.length far (p.length - 2) p rfl (by omega)
    rw [show p.length - 2 + 2 = p.length from by omega, List.take_length] at hspec
    refine ⟨hlen, ?_, hidx⟩
    show (projectPoint far p).take 2 = (specProjectPoint far p).take 2
    unfold projectPoint specProjectPoint
    rw [hspec, List.take_take]
    simp
  · have hzero : p.length - 2 = 0 := by omega
    refine ⟨?_, ?_, hidx⟩
    · unfold projectPoint
      rw [hzero]
      rfl
    · unfold projectPoint specProjectPoint
      rw [hzero]
      rfl

theorem projectPoint_concrete :
    projectPoint 1000 [(1 : ℚ), 1, 1] = [1000 / 999, 1000 / 999, 1000 / 999] := by
  unfold projectPoint
  show List.foldl _ _ [2] = _
  rw [List.foldl_cons, List.foldl_nil]
  rw [show ([(1 : ℚ), 1, 1]).length = 3 from rfl]
  rw [diagLoop_eq, diag_mul_point 3 _ [1, 1, 1] rfl]
  have hcoord : coord [(1 : ℚ), 1, 1] 2 = 1 := rfl
  rw [hcoord]
  norm_num

theorem specProjectPoint_concrete :
    specProjectPoint 1000 [(1 : ℚ), 1, 1] = [1000 / 999, 1000 / 999] := by
  unfold specProjectPoint
  show List.foldl _ _ [2] = _
  rw [List.foldl_cons, List.foldl_nil]
  have htake : ([(1 : ℚ), 1, 1]).take 2 = [1, 1] := rfl
  rw [htake, diag_mul_point 2 _ [1, 1] rfl]
  have hcoord : coord [(1 : ℚ), 1, 1] 2 = 1 := rfl
  rw [hcoord]
  norm_num

/-- **C4, counterexample.** On the rotated point `(1, 1, 1)` with far plane
1000, the final renderer returns a 3-coordinate point (the whole point is
scaled; nothing is restricted to the first `i` coordinates), while the
procedure the claim describes returns a 2-coordinate point. -/
theorem projection_restriction_fails :
    projectPoint 1000 [(1 : ℚ), 1, 1] = [1000 / 999, 1000 / 999, 1000 / 999] ∧
    specProjectPoint 1000 [(1 : ℚ), 1, 1] = [1000 / 999, 1000 / 999] ∧
    projectPoint 1000 [(1 : ℚ), 1, 1] ≠ specProjectPoint 1000 [(1 : ℚ), 1, 1] := by
  refine ⟨projectPoint_concrete, specProjectPoint_concrete, ?_⟩
  rw [projectPoint_concrete, specProjectPoint_concrete]
  intro h
  have := congrArg List.length h
  simp at this

/-! ### Claim C8: zero angle and the concrete projection scenario -/

theorem fold_rot_id (d : ℕ) (δ : ℚ) :
    ∀ (l : List (ℕ × ℕ)) (st : List (List ℚ) × ℚ), (∀ pr ∈ l, pr.1 < pr.2 ∧ pr.2 < d) →
      IsRect st.1 d 1 →
      (l.foldl (fun (st : List (List ℚ) × ℚ) pr =>
          (matMul (rotMat d pr.1 pr.2 1 0) st.1, st.2 + δ)) st).1 = st.1 := by
  intro l
  induction l with
  | nil =>
    intro st _ _
    rfl
  | cons pr l ih =>
    intro st hmem hrect
    obtain ⟨h1, h2⟩ := hmem pr (by simp)
    rw [List.foldl_cons]
    have hid : matMul (rotMat d pr.1 pr.2 1 0) st.1 = st.1 := by
      rw [rotMat_zero d pr.1 pr.2 h1 h2]
      exact matMul_id_left d 1 st.1 hrect (by omega) (by norm_num)
    rw [hid]
    exact ih (st.1, st.2 + δ) (fun q hq => hmem q (by simp [hq])) hrect

theorem transform_theta_zero (cosF sinF : ℚ → ℚ) (pi_ : ℚ) (d : ℕ)
    (speed offset elapsed : ℚ) (p : List ℚ) (hc : cosF 0 = 1) (hs : sinF 0 = 0)
    (hz : speed = 0 ∨ elapsed = 0) (hp : p.length = d) :
    transformPoint cosF sinF pi_ d speed offset elapsed p = p := by
  unfold transformPoint
  dsimp only
  have hθ : elapsed * speed * (pi_ / 180) = 0 := by
    rcases hz with h | h <;> rw [h] <;> ring
  rw [rotationsGenerator_eq_map, List.foldl_map]
  rw [foldl_congr_mem (planesList d) _
    (fun (st : List (List ℚ) × ℚ) pr =>
      (matMul (rotMat d pr.1 pr.2 1 0) st.1,
        st.2 + offset / ((d * (d - 1) / 2 : ℕ) : ℚ)))
    (pointToMatrix p, 1) ?_]
  · have hrect : IsRect (pointToMatrix p) d 1 := by
      have := pointToMatrix_rect p
      rw [hp] at this
      exact this
    rw [fold_rot_id d (offset / ((d * (d - 1) / 2 : ℕ) : ℚ)) (planesList d)
      (pointToMatrix p, 1) (planesList_mem d) hrect]
    exact matToPoint_pointToMatrix p
  · intro pr _ st
    dsimp only
    rw [hθ]
    simp only [zero_mul, hc, hs, ite_self]

/-- **C8 (claim).** When the rotation angle is zero (zero speed or zero
elapsed time) the composed rotation fixes every base point, for every
`D ≥ 2`; and in the concrete scenario `D = 3`, far plane 1000, perspective
projection of the base point `(1, 1, 1)` uses `r = 1000/999` and leaves
coordinates 0 and 1 both equal to `1000/999`. -/
theorem theta_zero_id_and_projection :
    (∀ (cosF sinF : ℚ → ℚ) (pi_ : ℚ) (d : ℕ) (speed offset elapsed : ℚ) (p : List ℚ),
      cosF 0 = 1 → sinF 0 = 0 → speed = 0 ∨ elapsed = 0 → 2 ≤ d → p.length = d →
      transformPoint cosF sinF pi_ d speed offset elapsed p = p) ∧
    coord (projectPoint 1000 [(1 : ℚ), 1, 1]) 0 = 1000 / 999 ∧
    coord (projectPoint 1000 [(1 : ℚ), 1, 1]) 1 = 1000 / 999 := by
  refine ⟨?_, ?_, ?_⟩
  · intro cosF sinF pi_ d speed offset elapsed p hc hs hz _ hp
    exact transform_theta_zero cosF sinF pi_ d speed offset elapsed p hc hs hz hp
  · rw [projectPoint_concrete]
    rfl
  · rw [projectPoint_concrete]
    rfl

/-- Witness for C8: a cosine stub with `cos 0 = 1`, `sin 0 = 0`, `D = 2`,
speed 0, and base point `[1, 2]`. -/
theorem theta_zero_id_witness :
    transformPoint (fun _ => 1) (fun _ => 0) 3 2 0 1 5 [(1 : ℚ), 2] = [1, 2] :=
  theta_zero_id_and_projection.1 (fun _ => 1) (fun _ => 0) 3 2 0 1 5 [1, 2]
    rfl rfl (Or.inl rfl) (by norm_num) (by norm_num)

/-! ### Claim C7: the full error behaviour of `Matrix.mul` -/

/-- The three distinct ways the source `mul` can throw: reading
`a[0].length` of an empty argument (a TypeError, thrown by the destructuring
line before any explicit check), the explicit 2-dimensional-format error,
and the explicit column/row mismatch error. -/
inductive MulError where
  | typeError : MulError
  | shapeError : MulError
  | dimError : MulError
deriving DecidableEq

/-- JavaScript element access `m[i][k]`: `none` is undefined. -/
def entryAt (m : List (List ℚ)) (i k : ℕ) : Option ℚ :=
  m[i]?.bind fun row => row[k]?

/-- Faithful embedding of `Matrix.mul`: destructuring reads `a[0].length`
and `b[0].length` (TypeError on an empty argument), then the explicit
guards run, then the triple loop accumulates `product[i][j] += a[i][k] *
b[k][j]`; `none` models NaN, which an out-of-range access introduces and
which then absorbs every later accumulation. -/
def jsMul (a b : List (List ℚ)) : Except MulError (List (List (Option ℚ))) :=
  match a[0]?, b[0]? with
  | none, _ => .error .typeError
  | some _, none => .error .typeError
  | some a0, some b0 =>
    if a0.length = 0 ∨ b0.length = 0 then .error .shapeError
    else if a0.length ≠ b.length then .error .dimError
    else .ok ((List.range a.length).map fun i => (List.range b0.length).map fun j =>
      (List.range a0.length).foldl (fun acc k =>
        match acc, entryAt a i k, entryAt b k j with
        | some s, some x, some y => some (s + x * y)
        | _, _, _ => none) (some 0))

theorem entryAt_getD (a : List (List ℚ)) (i k : ℕ) :
    (entryAt a i k).getD 0 = entry a i k := by
  unfold entryAt entry nth coord
  rw [List.getD_eq_getElem?_getD, List.getD_eq_getElem?_getD]
  cases ha : a[i]? with
  | none => rfl
  | some row =>
    show row[k]?.getD 0 = _
    rfl

theorem jsMul_foldl (a b : List (List ℚ)) (i j : ℕ) : ∀ n : ℕ,
    (List.range n).foldl (fun acc k =>
        match acc, entryAt a i k, entryAt b k j with
        | some s, some x, some y => some (s + x * y)
        | _, _, _ => none) (some 0)
      = if ∀ k < n, (entryAt a i k).isSome ∧ (entryAt b k j).isSome
        then some (∑ k in Finset.range n, entry a i k * entry b k j)
        else none := by
  intro n
  induction n with
  | zero => simp
  | succ n ih =>
    rw [List.range_succ, List.foldl_append, ih, List.foldl_cons, List.foldl_nil]
    by_cases hall : ∀ k < n, (entryAt a i k).isSome ∧ (entryAt b k j).isSome
    · rw [if_pos hall]
      by_cases hn : (entryAt a i n).isSome ∧ (entryAt b n j).isSome
      · obtain ⟨hx', hy'⟩ := hn
        obtain ⟨x, hx⟩ := Option.isSome_iff_exists.mp hx'
        obtain ⟨y, hy⟩ := Option.isSome_iff_exists.mp hy'
        rw [if_pos (by
          intro k hk
          rcases Nat.lt_succ_iff_lt_or_eq.mp hk with h | h
          · exact hall k h
          · subst h
            rw [hx, hy]
            exact ⟨rfl, rfl⟩)]
        rw [hx, hy]
        show some (_ + x * y) = _
        rw [Finset.sum_range_succ]
        have hex : entry a i n * entry b n j = x * y := by
          rw [← entryAt_getD, ← entryAt_getD, hx, hy]
          rfl
        rw [hex]
      · rw [if_neg (fun hc =>
          hn ⟨(hc n (Nat.lt_succ_self n)).1, (hc n (Nat.lt_succ_self n)).2⟩)]
        rcases hx : entryAt a i n with _ | x
        · rfl
        · rcases hy : entryAt b n j with _ | y
          · rfl
          · exact absurd ⟨by rw [hx]; rfl, by rw [hy]; rfl⟩ hn
    · rw [if_neg hall, if_neg (fun hc => hall fun k hk => hc k (by omega))]

theorem jsMul_nil_left (b : List (List ℚ)) : jsMul [] b = .error .typeError := by
  unfold jsMul
  rw [List.getElem?_nil]

theorem jsMul_nil_right (a0 : List ℚ) (as : List (List ℚ)) :
    jsMul (a0 :: as) [] = .error .typeError := by
  unfold jsMul
  rw [List.getElem?_cons_zero, List.getElem?_nil]

theorem jsMul_cons (a0 b0 : List ℚ) (as bs : List (List ℚ)) :
    jsMul (a0 :: as) (b0 :: bs)
      = if a0.length = 0 ∨ b0.length = 0 then .error .shapeError
        else if a0.length ≠ (b0 :: bs).length then .error .dimError
        else .ok ((List.range (a0 :: as).length).map fun i =>
          (List.range b0.length).map fun j =>
          (List.range a0.length).foldl (fun acc k =>
            match acc, entryAt (a0 :: as) i k, entryAt (b0 :: bs) k j with
            | some s, some x, some y => some (s + x * y)
            | _, _, _ => none) (some 0)) := by
  unfold jsMul
  rw [List.getElem?_cons_zero, List.getElem?_cons_zero]

/-- On rectangular nonempty arguments of matching inner dimension, `mul`
returns exactly the pure triple-loop product (no NaN appears). -/
theorem jsMul_rect (a b : List (List ℚ)) (r k c : ℕ) (hr : 0 < r) (hk : 0 < k)
    (hc : 0 < c) (ha : IsRect a r k) (hb : IsRect b k c) :
    jsMul a b = .ok ((matMul a b).map (List.map some)) := by
  rcases a with _ | ⟨a0, as⟩
  · exfalso
    have := ha.1
    simp at this
    omega
  rcases b with _ | ⟨b0, bs⟩
  · exfalso
    have := hb.1
    simp at this
    omega
  have hka : a0.length = k := ha.2 a0 (by simp)
  have hcb : b0.length = c := hb.2 b0 (by simp)
  rw [jsMul_cons]
  rw [if_neg (by omega), if_neg (by
    rw [hb.1, hka]
    exact fun h => h rfl)]
  congr 1
  rw [matMul, List.map_map]
  apply List.map_congr_left
  intro i hi
  rw [List.mem_range] at hi
  show List.map _ _ = List.map _ _
  rw [List.map_map]
  rw [show (nth (b0 :: bs) 0).length = b0.length from rfl]
  apply List.map_congr_left
  intro j hj
  rw [List.mem_range] at hj
  show _ = some _
  rw [jsMul_foldl (a0 :: as) (b0 :: bs) i j a0.length]
  rw [if_pos ?_]
  · rw [show (nth (a0 :: as) 0).length = a0.length from rfl]
  · intro k' hk'
    have hkb : k' < (b0 :: bs).length := by
      have := hb.1
      omega
    constructor
    · unfold entryAt
      rw [List.getElem?_eq_getElem hi]
      show ((a0 :: as)[i][k']?).isSome = true
      rw [List.getElem?_eq_getElem (by
        rw [ha.2 _ (List.getElem_mem hi)]
        omega)]
      rfl
    · unfold entryAt
      rw [List.getElem?_eq_getElem hkb]
      show ((b0 :: bs)[k'][j]?).isSome = true
      rw [List.getElem?_eq_getElem (by
        rw [hb.2 _ (List.getElem_mem hkb)]
        omega)]
      rfl

/-- **C7 (amended).** `mul` raises a TypeError when either argument is empty
(reading `a[0].length` crashes before any explicit check); it raises the
2-dimensional-format error when a first row is empty, and the dimension
error when `a[0].length` is not `b.length`.  Rectangularity is never
checked: on every other input the triple loop runs (NaN, modelled `none`,
appears wherever a row access goes out of range), and on rectangular
nonempty input the result is exactly the standard `rows(a) x cols(b)`
summation product. -/
theorem mul_error_spec (a b : List (List ℚ)) :
    (jsMul a b = .error .typeError ↔ a = [] ∨ b = []) ∧
    (jsMul a b = .error .shapeError ↔ a ≠ [] ∧ b ≠ [] ∧
      (nth a 0 = [] ∨ nth b 0 = [])) ∧
    (jsMul a b = .error .dimError ↔ a ≠ [] ∧ b ≠ [] ∧ nth a 0 ≠ [] ∧ nth b 0 ≠ [] ∧
      (nth a 0).length ≠ b.length) ∧
    (∀ r k c : ℕ, 0 < r → 0 < k → 0 < c → IsRect a r k → IsRect b k c →
      jsMul a b = .ok ((matMul a b).map (List.map some))) := by
  refine ⟨?_, ?_, ?_, fun r k c hr hk hc ha hb => jsMul_rect a b r k c hr hk hc ha hb⟩
  · rcases a with _ | ⟨a0, as⟩
    · rw [jsMul_nil_left]
      simp
    · rcases b with _ | ⟨b0, bs⟩
      · rw [jsMul_nil_right]
        simp
      · rw [jsMul_cons]
        constructor
        · intro h
          exfalso
          split at h
          · exact MulError.noConfusion (Except.error.inj h)
          · split at h
            · exact MulError.noConfusion (Except.error.inj h)
            · exact Except.noConfusion h
        · intro h
          rcases h with h | h <;> exact List.noConfusion h
  · rcases a with _ | ⟨a0, as⟩
    · rw [jsMul_nil_left]
      constructor
      · intro h
        exact MulError.noConfusion (Except.error.inj h)
      · intro h
        exact (h.1 rfl).elim
    · rcases b with _ | ⟨b0, bs⟩
      · rw [jsMul_nil_right]
        constructor
        · intro h
          exact MulError.noConfusion (Except.error.inj h)
        · intro h
          exact (h.2.1 rfl).elim
      · rw [jsMul_cons]
        have hna : nth (a0 :: as) 0 = a0 := rfl
        have hnb : nth (b0 :: bs) 0 = b0 := rfl
        constructor
        · intro h
          refine ⟨by simp, by simp, ?_⟩
          rw [hna, hnb]
          split at h
          · rename_i hcond
            rcases hcond with hcond | hcond
            · exact Or.inl (List.length_eq_zero.mp hcond)
            · exact Or.inr (List.length_eq_zero.mp hcond)
          · split at h
            · exact MulError.noConfusion (Except.error.inj h)
            · exact Except.noConfusion h
        · intro h
          obtain ⟨-, -, hor⟩ := h
          rw [hna, hnb] at hor
          rw [if_pos (by
            rcases hor with hor | hor
            · exact Or.inl (by rw [hor]; rfl)
            · exact Or.inr (by rw [hor]; rfl))]
  · rcases a with _ | ⟨a0, as⟩
    · rw [jsMul_nil_left]
      constructor
      · intro h
        exact MulError.noConfusion (Except.error.inj h)
      · intro h
        exact (h.1 rfl).elim
    · rcases b with _ | ⟨b0, bs⟩
      · rw [jsMul_nil_right]
        constructor
        · intro h
          exact MulError.noConfusion (Except.error.inj h)
        · intro h
          exact (h.2.1 rfl).elim
      · rw [jsMul_cons]
        have hna : nth (a0 :: as) 0 = a0 := rfl
        have hnb : nth (b0 :: bs) 0 = b0 := rfl
        constructor
        · intro h
          split at h
          · exact MulError.noConfusion (Except.error.inj h)
          · rename_i hshape
            split at h
            · rename_i hdim
              push_neg at hshape
              refine ⟨by simp, by simp, ?_, ?_, ?_⟩
              · rw [hna]
                intro hh
                rw [hh] at hshape
                exact hshape.1 rfl
              · rw [hnb]
                intro hh
                rw [hh] at hshape
                exact hshape.2 rfl
              · rw [hna]
                exact hdim
            · exact Except.noConfusion h
        · intro h
          obtain ⟨-, -, h1, h2, h3⟩ := h
          rw [hna] at h1 h3
          rw [hnb] at h2
          rw [if_neg (by
            rintro (hc | hc)
            · exact h1 (List.length_eq_zero.mp hc)
            · exact h2 (List.length_eq_zero.mp hc))]
          rw [if_pos h3]

/-- **C7, counterexample.** `mul` on a non-rectangular first argument does
not fail at all: it returns a product matrix, with NaN where the ragged row
was read past its end. -/
theorem mul_shape_unchecked :
    jsMul [[(1 : ℚ), 2], [3]] [[1], [1]] = .ok [[some 3], [none]] := by
  have h : jsMul [[(1 : ℚ), 2], [3]] [[1], [1]]
      = .ok [[some ((0 : ℚ) + 1 * 1 + 2 * 1)], [none]] := rfl
  rw [h]
  norm_num

/-- Witness for C7 at concrete rectangular matrices. -/
theorem mul_error_spec_witness :
    jsMul [[(2 : ℚ)]] [[(3 : ℚ)]] = .ok ((matMul [[2]] [[3]]).map (List.map some)) :=
  (mul_error_spec [[(2 : ℚ)]] [[(3 : ℚ)]]).2.2.2 1 1 1 one_pos one_pos one_pos
    ⟨rfl, by intro row h; rw [List.mem_singleton] at h; rw [h]; rfl⟩
    ⟨rfl, by intro row h; rw [List.mem_singleton] at h; rw [h]; rfl⟩



/-! ### The color hash (`hash` in global.js) -/

/-- `Math.imul` on 32-bit values: the product reduced to the low 32 bits.
The JavaScript result is signed, but every later operation in `hash` is a
bit operation, so the unsigned residue captures the bit pattern exactly. -/
def imul (x y : ℕ) : ℕ :=
  (x * y) % 4294967296

/-- Embedding of `hash`.  The argument is the stringification of whatever
value the caller passed (the call sites pass numbers); character codes are
UTF-16 units, which agree with code points for the ASCII strings the
renderer produces.  The seed is reduced to its 32-bit residue, matching the
coercion the XOR applies.  The function mixes two accumulators, combines
them into the integer `4294967296 * (2097151 & h2) + (h1 >>> 0)`, reduces
it modulo 256 and renders that byte in lowercase base 16 without padding. -/
def hash (data : String) (seed : ℕ) : String :=
  let s := seed % 4294967296
  let st := (data.toList.map Char.toNat).foldl
    (fun (st : ℕ × ℕ) ch =>
      (imul (Nat.xor st.1 ch) 2654435761, imul (Nat.xor st.2 ch) 1597334677))
    (Nat.xor 0xdeadbeef s, Nat.xor 0x41c6ce57 s)
  let h1 := Nat.xor (imul (Nat.xor st.1 (st.1 >>> 16)) 2246822507)
    (imul (Nat.xor st.2 (st.2 >>> 13)) 3266489909)
  let h2 := Nat.xor (imul (Nat.xor st.2 (st.2 >>> 16)) 2246822507)
    (imul (Nat.xor h1 (h1 >>> 13)) 3266489909)
  let output := 4294967296 * (Nat.land 2097151 h2) + h1
  (Nat.toDigits 16 (output % 256)).asString

/-- The byte the hash renders. -/
def hashByte (data : String) (seed : ℕ) : ℕ :=
  let s := seed % 4294967296
  let st := (data.toList.map Char.toNat).foldl
    (fun (st : ℕ × ℕ) ch =>
      (imul (Nat.xor st.1 ch) 2654435761, imul (Nat.xor st.2 ch) 1597334677))
    (Nat.xor 0xdeadbeef s, Nat.xor 0x41c6ce57 s)
  let h1 := Nat.xor (imul (Nat.xor st.1 (st.1 >>> 16)) 2246822507)
    (imul (Nat.xor st.2 (st.2 >>> 13)) 3266489909)
  let h2 := Nat.xor (imul (Nat.xor st.2 (st.2 >>> 16)) 2246822507)
    (imul (Nat.xor h1 (h1 >>> 13)) 3266489909)
  (4294967296 * (Nat.land 2097151 h2) + h1) % 256

theorem hash_eq_toDigits (data : String) (seed : ℕ) :
    hash data seed = (Nat.toDigits 16 (hashByte data seed)).asString := rfl

theorem hashByte_lt (data : String) (seed : ℕ) : hashByte data seed < 256 :=
  Nat.mod_lt _ (by norm_num)

set_option maxRecDepth 10000 in
theorem toDigits_len : ∀ n < 256, (Nat.toDigits 16 n).length = 1 ∨
    (Nat.toDigits 16 n).length = 2 := by
  decide

/-- **C10 (claim).** The color hash always returns the base-16 rendering of
a byte (an integer in [0, 255]) with no zero-padding, so the string has one
or two characters; a color assembled as `#` plus three hash results can
therefore be shorter than the seven characters of a full hex color; and the
function is a pure function of the stringified data and the seed. -/
theorem hash_spec :
    (∀ (data : String) (seed : ℕ), ∃ n : ℕ, n ≤ 255 ∧
      hash data seed = (Nat.toDigits 16 n).asString ∧
      ((hash data seed).length = 1 ∨ (hash data seed).length = 2)) ∧
    (∃ (d₁ d₂ d₃ : String) (s : ℕ),
      ("#" ++ hash d₁ s ++ hash d₂ s ++ hash d₃ s).length < 7) ∧
    (∀ (d₁ d₂ : String) (s₁ s₂ : ℕ), d₁ = d₂ → s₁ = s₂ →
      hash d₁ s₁ = hash d₂ s₂) := by
  refine ⟨?_, ?_, ?_⟩
  · intro data seed
    refine ⟨hashByte data seed, by have := hashByte_lt data seed; omega,
      hash_eq_toDigits data seed, ?_⟩
    rw [hash_eq_toDigits data seed]
    have hlen : ((Nat.toDigits 16 (hashByte data seed)).asString).length
        = (Nat.toDigits 16 (hashByte data seed)).length := rfl
    rw [hlen]
    exact toDigits_len (hashByte data seed) (hashByte_lt data seed)
  · refine ⟨"a", "a", "a", 0, ?_⟩
    have h : hash "a" 0 = "1" := by decide
    rw [h]
    decide
  · intro d₁ d₂ s₁ s₂ h1 h2
    rw [h1, h2]

/-- Witness for the determinism conjunct of C10. -/
theorem hash_spec_witness : hash "7" 0 = hash "7" 0 :=
  hash_spec.2.2 "7" "7" 0 0 rfl rfl

/-! ### Claim C6: the dimension validation in setup -/

/-- Modelled from JavaScript semantics: `parseInt` applied to the default
decimal rendering of a finite number truncates it toward zero.  (Inputs
whose rendering is scientific notation do not arise in this comparison
context; for integers the function is the identity.) -/
def jsParseIntQ (q : ℚ) : ℤ :=
  if 0 ≤ q then ⌊q⌋ else ⌈q⌉

/-- The only validation of the dimension count anywhere in the sources, from
the older variant of `setup`: throw when `DIMENSIONS !== parseInt(DIMENSIONS)`.
The final renderer.js `setup` performs no validation at all. -/
def setupDimensionCheck (dimensions : ℚ) : Except String Unit :=
  if ¬ ((jsParseIntQ dimensions : ℚ) = dimensions) then
    .error "Dimension must be positive integer greater than 1"
  else .ok ()

/-- The cache the final renderer.js `setup` builds, with no validation. -/
def setupFinal (dimensions : ℕ) (size : ℚ) : List (List ℚ) :=
  cubePointsGenerator dimensions size

/-- **C6 (evaluation).** The dimension check accepts `D = 1` and `D = 0`
even though its own error message demands an integer greater than 1: only
non-integers are rejected.  The final renderer's `setup` builds the vertex
cache for `D = 1` without any error. -/
theorem setup_accepts_degenerate_dimensions :
    setupDimensionCheck 1 = .ok () ∧
    setupDimensionCheck 0 = .ok () ∧
    setupDimensionCheck (5 / 2) =
      .error "Dimension must be positive integer greater than 1" ∧
    (setupFinal 1 300).length = 2 := by
  refine ⟨?_, ?_, ?_, ?_⟩
  · unfold setupDimensionCheck jsParseIntQ
    norm_num
  · unfold setupDimensionCheck jsParseIntQ
    norm_num
  · unfold setupDimensionCheck jsParseIntQ
    norm_num
  · show (cubePointsGenerator 1 300).length = 2
    rw [cubePointsGenerator_length]
    norm_num

/-! ### The face generator (`faceGenerator` in renderer.js) -/

/-- Lexicographic comparison of character lists, as JavaScript compares
strings with the relational operators. -/
def strLtChars : List Char → List Char → Bool
  | [], [] => false
  | [], _ :: _ => true
  | _ :: _, [] => false
  | a :: as, b :: bs => if a = b then strLtChars as bs else decide (a < b)

/-- The comparison the face loops perform: array keys are strings, so
`i >= j` compares the decimal strings of the indices lexicographically
(this differs from numeric order from index 10 on). -/
def jsIdxLt (i j : ℕ) : Bool :=
  strLtChars (Nat.toDigits 10 i) (Nat.toDigits 10 j)

section FaceGen

variable {α : Type} [DecidableEq α] {β : Type} [DecidableEq β]

/-- The number of dimensions shared by all four points: positions of the
first point at which all four hold identical values. -/
def matchAll4 (a b cc e : List α) : ℕ :=
  (List.range a.length).countP fun m =>
    decide (b[m]? = a[m]? ∧ cc[m]? = a[m]? ∧ e[m]? = a[m]?)

/-- The ordering loop of the face generator.  The source runs an unbounded
while loop: compare the last placed vertex with the head of the remaining
list; if they share all but one dimension, place the head, otherwise rotate
the remaining list.  The fuel argument models the unbounded loop; `none`
stands for non-termination (never reached on generator inputs, see the
termination theorem), and fuel 12 is ample for the four placements. -/
def orderLoop (dimension : ℕ) (pts : List (List α)) :
    ℕ → List ℕ → List ℕ → Option (List ℕ)
  | 0, faceIndices, _ => if faceIndices.length = 4 then some faceIndices else none
  | fuel + 1, faceIndices, rest =>
    if faceIndices.length = 4 then some faceIndices
    else match rest with
      | [] => none
      | r :: rs =>
        if matchCount (nth pts (faceIndices.getLastD 0)) (nth pts r) = dimension - 1
        then orderLoop dimension pts fuel (faceIndices ++ [r]) rs
        else orderLoop dimension pts fuel faceIndices (rs ++ [r])

/-- Embedding of `faceGenerator`: four nested index loops with the string
guards of the source, the all-four shared-dimension test, then the ordering
loop started with the first index placed and the other three pending. -/
def faceGenerator (dimension : ℕ) (pts : List (List α)) : List (Option (List ℕ)) :=
  (List.range pts.length).flatMap fun i =>
  (List.range pts.length).flatMap fun j =>
  if ¬ jsIdxLt i j then [] else
  (List.range pts.length).flatMap fun k =>
  if ¬ jsIdxLt j k then [] else
  (List.range pts.length).flatMap fun l =>
  if ¬ jsIdxLt k l then [] else
  if matchAll4 (nth pts i) (nth pts j) (nth pts k) (nth pts l) ≠ dimension - 2 then []
  else [orderLoop dimension pts 12 [i] [j, k, l]]

theorem matchAll4_map (f : α → β) (hf : Function.Injective f) (a b c e : List α) :
    matchAll4 (a.map f) (b.map f) (c.map f) (e.map f) = matchAll4 a b c e := by
  unfold matchAll4
  rw [List.length_map]
  apply List.countP_congr
  intro m _
  simp only [List.getElem?_map, decide_eq_true_eq]
  constructor
  · rintro ⟨h1, h2, h3⟩
    exact ⟨Option.map_injective hf h1, Option.map_injective hf h2,
      Option.map_injective hf h3⟩
  · rintro ⟨h1, h2, h3⟩
    rw [h1, h2, h3]
    exact ⟨rfl, rfl, rfl⟩

theorem orderLoop_map (f : α → β) (hf : Function.Injective f) (d : ℕ)
    (pts : List (List α)) :
    ∀ (fuel : ℕ) (fi rest : List ℕ),
      orderLoop d (pts.map (List.map f)) fuel fi rest = orderLoop d pts fuel fi rest := by
  intro fuel
  induction fuel with
  | zero =>
    intro fi rest
    rfl
  | succ fuel ih =>
    intro fi rest
    rcases rest with _ | ⟨r, rs⟩
    · rw [orderLoop, orderLoop]
    · rw [orderLoop, orderLoop, nth_map, nth_map, matchCount_map f hf]
      by_cases hm : matchCount (nth pts (fi.getLastD 0)) (nth pts r) = d - 1 <;>
        simp only [hm, if_pos, if_neg, ih]

theorem flatMap_congr {γ δ : Type} (l : List γ) (f g : γ → List δ)
    (h : ∀ x ∈ l, f x = g x) : l.flatMap f = l.flatMap g := by
  rw [List.flatMap_def, List.flatMap_def, List.map_congr_left h]

theorem faceGenerator_map (f : α → β) (hf : Function.Injective f) (d : ℕ)
    (pts : List (List α)) :
    faceGenerator d (pts.map (List.map f)) = faceGenerator d pts := by
  unfold faceGenerator
  rw [List.length_map]
  apply flatMap_congr
  intro i _
  apply flatMap_congr
  intro j _
  by_cases hij : jsIdxLt i j
  · rw [if_neg (show ¬ ¬ (jsIdxLt i j = true) by simp [hij]),
      if_neg (show ¬ ¬ (jsIdxLt i j = true) by simp [hij])]
    apply flatMap_congr
    intro k _
    by_cases hjk : jsIdxLt j k
    · rw [if_neg (show ¬ ¬ (jsIdxLt j k = true) by simp [hjk]),
        if_neg (show ¬ ¬ (jsIdxLt j k = true) by simp [hjk])]
      apply flatMap_congr
      intro l _
      by_cases hkl : jsIdxLt k l
      · rw [if_neg (show ¬ ¬ (jsIdxLt k l = true) by simp [hkl]),
          if_neg (show ¬ ¬ (jsIdxLt k l = true) by simp [hkl])]
        rw [nth_map, nth_map, nth_map, nth_map, matchAll4_map f hf]
        by_cases hmatch : matchAll4 (nth pts i) (nth pts j) (nth pts k) (nth pts l)
            = d - 2
        · rw [if_neg (show ¬ matchAll4 (nth pts i) (nth pts j) (nth pts k)
              (nth pts l) ≠ d - 2 by simp [hmatch]),
            if_neg (show ¬ matchAll4 (nth pts i) (nth pts j) (nth pts k)
              (nth pts l) ≠ d - 2 by simp [hmatch])]
          rw [orderLoop_map f hf]
        · rw [if_pos (show matchAll4 (nth pts i) (nth pts j) (nth pts k)
              (nth pts l) ≠ d - 2 from hmatch),
            if_pos (show matchAll4 (nth pts i) (nth pts j) (nth pts k)
              (nth pts l) ≠ d - 2 from hmatch)]
      · rw [if_pos (show ¬ (jsIdxLt k l = true) from hkl),
          if_pos (show ¬ (jsIdxLt k l = true) from hkl)]
    · rw [if_pos (show ¬ (jsIdxLt j k = true) from hjk),
        if_pos (show ¬ (jsIdxLt j k = true) from hjk)]
  · rw [if_pos (show ¬ (jsIdxLt i j = true) from hij),
      if_pos (show ¬ (jsIdxLt i j = true) from hij)]

end FaceGen

/-! ### Termination analysis of the ordering loop -/

/-- Number of bit positions below `d` at which the four indices do not all
hold the same bit: the four-point analogue of `hamming`.  The cube points
with indices `a b c e` share exactly `d - hamming4 d a b c e` dimensions. -/
def hamming4 (d a b c e : ℕ) : ℕ :=
  ((Finset.range d).filter fun k =>
    ¬ (b.testBit k = a.testBit k ∧ c.testBit k = a.testBit k
      ∧ e.testBit k = a.testBit k)).card

theorem hamming4_le (d a b c e : ℕ) : hamming4 d a b c e ≤ d := by
  unfold hamming4
  calc ((Finset.range d).filter fun k =>
        ¬ (b.testBit k = a.testBit k ∧ c.testBit k = a.testBit k
          ∧ e.testBit k = a.testBit k)).card
      ≤ (Finset.range d).card := Finset.card_filter_le _ _
  _ = d := Finset.card_range d

theorem bitsOfWidth_getElem? (d x ii : ℕ) (hii : ii < d) :
    (bitsOfWidth d x)[ii]? = some (x.testBit (d - 1 - ii)) := by
  unfold bitsOfWidth
  rw [List.getElem?_map, List.getElem?_range hii]
  rfl

theorem matchAll4_bits (d a b c e : ℕ) :
    matchAll4 (bitsOfWidth d a) (bitsOfWidth d b) (bitsOfWidth d c) (bitsOfWidth d e)
      = d - hamming4 d a b c e := by
  unfold matchAll4
  rw [bitsOfWidth_length]
  have hcong : ∀ ii ∈ List.range d,
      (decide ((bitsOfWidth d b)[ii]? = (bitsOfWidth d a)[ii]?
        ∧ (bitsOfWidth d c)[ii]? = (bitsOfWidth d a)[ii]?
        ∧ (bitsOfWidth d e)[ii]? = (bitsOfWidth d a)[ii]?))
      = decide (b.testBit (d - 1 - ii) = a.testBit (d - 1 - ii)
        ∧ c.testBit (d - 1 - ii) = a.testBit (d - 1 - ii)
        ∧ e.testBit (d - 1 - ii) = a.testBit (d - 1 - ii)) := by
    intro ii hii
    rw [List.mem_range] at hii
    rw [bitsOfWidth_getElem? d a ii hii, bitsOfWidth_getElem? d b ii hii,
      bitsOfWidth_getElem? d c ii hii, bitsOfWidth_getElem? d e ii hii]
    simp
  rw [List.countP_congr fun ii hii => by rw [hcong ii hii]]
  rw [countP_range_card d fun ii => b.testBit (d - 1 - ii) = a.testBit (d - 1 - ii)
    ∧ c.testBit (d - 1 - ii) = a.testBit (d - 1 - ii)
    ∧ e.testBit (d - 1 - ii) = a.testBit (d - 1 - ii)]
  have hbij : ((Finset.range d).filter fun ii =>
        b.testBit (d - 1 - ii) = a.testBit (d - 1 - ii)
        ∧ c.testBit (d - 1 - ii) = a.testBit (d - 1 - ii)
        ∧ e.testBit (d - 1 - ii) = a.testBit (d - 1 - ii)).card
      = ((Finset.range d).filter fun k => b.testBit k = a.testBit k
        ∧ c.testBit k = a.testBit k ∧ e.testBit k = a.testBit k).card := by
    apply Finset.card_nbij' (fun ii => d - 1 - ii) (fun k => d - 1 - k)
    · intro x hx
      rw [Finset.mem_filter, Finset.mem_range] at hx ⊢
      exact ⟨by omega, hx.2⟩
    · intro x hx
      rw [Finset.mem_filter, Finset.mem_range] at hx ⊢
      refine ⟨by omega, ?_⟩
      rw [show d - 1 - (d - 1 - x) = x by omega]
      exact hx.2
    · intro x hx
      rw [Finset.mem_filter, Finset.mem_range] at hx
      omega
    · intro x hx
      rw [Finset.mem_filter, Finset.mem_range] at hx
      omega
  rw [hbij]
  have hsplit : ((Finset.range d).filter fun k => b.testBit k = a.testBit k
        ∧ c.testBit k = a.testBit k ∧ e.testBit k = a.testBit k).card
      + ((Finset.range d).filter fun k => ¬ (b.testBit k = a.testBit k
        ∧ c.testBit k = a.testBit k ∧ e.testBit k = a.testBit k)).card
      = (Finset.range d).card :=
    Finset.filter_card_add_filter_neg_card_eq_card fun k =>
      b.testBit k = a.testBit k ∧ c.testBit k = a.testBit k ∧ e.testBit k = a.testBit k
  rw [Finset.card_range] at hsplit
  have hneg : ((Finset.range d).filter fun k => ¬ (b.testBit k = a.testBit k
      ∧ c.testBit k = a.testBit k ∧ e.testBit k = a.testBit k)).card
      = hamming4 d a b c e := rfl
  omega

theorem matchAll4_cube (d : ℕ) (s : ℚ) (hd : 1 ≤ d) (hs : s ≠ 0) (a b c e : ℕ)
    (ha : a < 2 ^ d) (hb : b < 2 ^ d) (hc : c < 2 ^ d) (he : e < 2 ^ d) :
    matchAll4 (nth (cubePointsGenerator d s) a) (nth (cubePointsGenerator d s) b)
      (nth (cubePointsGenerator d s) c) (nth (cubePointsGenerator d s) e)
      = d - hamming4 d a b c e := by
  rw [nth_cube_eq d s hd a ha, nth_cube_eq d s hd b hb, nth_cube_eq d s hd c hc,
    nth_cube_eq d s hd e he, matchAll4_map (scaleBit s) (scaleBit_injective s hs),
    matchAll4_bits]

theorem hamming4_two_structure (d a b c e : ℕ) (h2 : hamming4 d a b c e = 2) :
    ∃ p q, p < d ∧ q < d ∧ p ≠ q ∧
      ∀ k < d, k ≠ p → k ≠ q →
        b.testBit k = a.testBit k ∧ c.testBit k = a.testBit k
          ∧ e.testBit k = a.testBit k := by
  unfold hamming4 at h2
  rw [Finset.card_eq_two] at h2
  obtain ⟨p, q, hpq, hset⟩ := h2
  have hpmem : p ∈ (Finset.range d).filter fun k =>
      ¬ (b.testBit k = a.testBit k ∧ c.testBit k = a.testBit k
        ∧ e.testBit k = a.testBit k) := by
    rw [hset]
    exact Finset.mem_insert_self p {q}
  have hqmem : q ∈ (Finset.range d).filter fun k =>
      ¬ (b.testBit k = a.testBit k ∧ c.testBit k = a.testBit k
        ∧ e.testBit k = a.testBit k) := by
    rw [hset]
    exact Finset.mem_insert_of_mem (Finset.mem_singleton_self q)
  rw [Finset.mem_filter, Finset.mem_range] at hpmem hqmem
  refine ⟨p, q, hpmem.1, hqmem.1, hpq, ?_⟩
  intro k hk hkp hkq
  by_contra hcon
  have hkmem : k ∈ (Finset.range d).filter fun k =>
      ¬ (b.testBit k = a.testBit k ∧ c.testBit k = a.testBit k
        ∧ e.testBit k = a.testBit k) := by
    rw [Finset.mem_filter, Finset.mem_range]
    exact ⟨hk, hcon⟩
  rw [hset, Finset.mem_insert, Finset.mem_singleton] at hkmem
  rcases hkmem with rfl | rfl
  · exact hkp rfl
  · exact hkq rfl

theorem hamming_of_outside (d x y p q : ℕ) (hp : p < d) (hq : q < d) (hpq : p ≠ q)
    (hout : ∀ k < d, k ≠ p → k ≠ q → x.testBit k = y.testBit k) :
    hamming d x y = (if x.testBit p = y.testBit p then 0 else 1)
      + (if x.testBit q = y.testBit q then 0 else 1) := by
  unfold hamming
  have hset : ((Finset.range d).filter fun k => x.testBit k ≠ y.testBit k)
      = ({p, q} : Finset ℕ).filter fun k => x.testBit k ≠ y.testBit k := by
    ext k
    simp only [Finset.mem_filter, Finset.mem_range, Finset.mem_insert,
      Finset.mem_singleton]
    constructor
    · rintro ⟨hk, hne⟩
      refine ⟨?_, hne⟩
      by_contra hcon
      push_neg at hcon
      exact hne (hout k hk hcon.1 hcon.2)
    · rintro ⟨hk, hne⟩
      refine ⟨?_, hne⟩
      rcases hk with rfl | rfl
      · exact hp
      · exact hq
  rw [hset, Finset.filter_insert, Finset.filter_singleton]
  by_cases h1 : x.testBit p = y.testBit p <;> by_cases h2 : x.testBit q = y.testBit q
  · rw [if_neg (by simp [h1]), if_neg (by simp [h2]), if_pos h1, if_pos h2]
    simp
  · rw [if_neg (by simp [h1]), if_pos (by simp [h2]), if_pos h1, if_neg h2]
    simp
  · rw [if_pos (by simp [h1]), if_neg (by simp [h2]), if_neg h1, if_pos h2]
    simp
  · rw [if_pos (by simp [h1]), if_pos (by simp [h2]), if_neg h1, if_neg h2]
    rw [Finset.card_insert_of_not_mem (by simp [hpq]), Finset.card_singleton]

theorem sig_distinct (d x y p q : ℕ) (hx : x < 2 ^ d) (hy : y < 2 ^ d) (hxy : x ≠ y)
    (hout : ∀ k < d, k ≠ p → k ≠ q → x.testBit k = y.testBit k)
    (h1 : x.testBit p = y.testBit p) (h2 : x.testBit q = y.testBit q) : False := by
  apply hxy
  apply Nat.eq_of_testBit_eq
  intro k
  by_cases hk : k < d
  · by_cases hkp : k = p
    · subst hkp
      exact h1
    · by_cases hkq : k = q
      · subst hkq
        exact h2
      · exact hout k hk hkp hkq
  · rw [Nat.testBit_lt_two_pow
        (lt_of_lt_of_le hx (Nat.pow_le_pow_right (by norm_num) (by omega))),
      Nat.testBit_lt_two_pow
        (lt_of_lt_of_le hy (Nat.pow_le_pow_right (by norm_num) (by omega)))]

/-- Number of components at which two signature pairs differ. -/
def sigDiff (u v : Bool × Bool) : ℕ :=
  (if u.1 = v.1 then 0 else 1) + (if u.2 = v.2 then 0 else 1)

/-- Boolean form of the four-signature case analysis: either two signatures
coincide, or one of the three pairings into two antipodal pairs occurs. -/
def sigOk (A B C E : Bool × Bool) : Bool :=
  (A == B) || (A == C) || (A == E) || (B == C) || (B == E) || (C == E) ||
  ((sigDiff A B == 2) && (sigDiff A C == 1) && (sigDiff A E == 1)
    && (sigDiff B C == 1) && (sigDiff B E == 1) && (sigDiff C E == 2)) ||
  ((sigDiff A B == 1) && (sigDiff A C == 2) && (sigDiff A E == 1)
    && (sigDiff B C == 1) && (sigDiff B E == 2) && (sigDiff C E == 1)) ||
  ((sigDiff A B == 1) && (sigDiff A C == 1) && (sigDiff A E == 2)
    && (sigDiff B C == 2) && (sigDiff B E == 1) && (sigDiff C E == 1))

theorem sigOk_true : ∀ A B C E : Bool × Bool, sigOk A B C E = true := by
  decide

theorem sigDiff_cases (A B C E : Bool × Bool)
    (hAB : A ≠ B) (hAC : A ≠ C) (hAE : A ≠ E)
    (hBC : B ≠ C) (hBE : B ≠ E) (hCE : C ≠ E) :
    (sigDiff A B = 2 ∧ sigDiff A C = 1 ∧ sigDiff A E = 1
      ∧ sigDiff B C = 1 ∧ sigDiff B E = 1 ∧ sigDiff C E = 2) ∨
    (sigDiff A B = 1 ∧ sigDiff A C = 2 ∧ sigDiff A E = 1
      ∧ sigDiff B C = 1 ∧ sigDiff B E = 2 ∧ sigDiff C E = 1) ∨
    (sigDiff A B = 1 ∧ sigDiff A C = 1 ∧ sigDiff A E = 2
      ∧ sigDiff B C = 2 ∧ sigDiff B E = 1 ∧ sigDiff C E = 1) := by
  have h := sigOk_true A B C E
  unfold sigOk at h
  simp only [Bool.or_eq_true, Bool.and_eq_true, beq_iff_eq] at h
  rcases h with ((((((((h | h) | h) | h) | h) | h) | h) | h) | h)
  · exact absurd h hAB
  · exact absurd h hAC
  · exact absurd h hAE
  · exact absurd h hBC
  · exact absurd h hBE
  · exact absurd h hCE
  · exact Or.inl ⟨h.1.1.1.1.1, h.1.1.1.1.2, h.1.1.1.2, h.1.1.2, h.1.2, h.2⟩
  · exact Or.inr (Or.inl ⟨h.1.1.1.1.1, h.1.1.1.1.2, h.1.1.1.2, h.1.1.2, h.1.2, h.2⟩)
  · exact Or.inr (Or.inr ⟨h.1.1.1.1.1, h.1.1.1.1.2, h.1.1.1.2, h.1.1.2, h.1.2, h.2⟩)

section LoopSteps

variable {α : Type} [DecidableEq α]

theorem orderLoop_done (d : ℕ) (pts : List (List α)) (fuel : ℕ)
    (fi rest : List ℕ) (h : fi.length = 4) :
    orderLoop d pts fuel fi rest = some fi := by
  cases fuel with
  | zero => rw [orderLoop, if_pos h]
  | succ n =>
    cases rest with
    | nil => rw [orderLoop, if_pos h]
    | cons r rs => rw [orderLoop, if_pos h]

theorem orderLoop_place (d : ℕ) (pts : List (List α)) (fuel : ℕ)
    (fi : List ℕ) (r : ℕ) (rs : List ℕ) (hlen : ¬ fi.length = 4)
    (hm : matchCount (nth pts (fi.getLastD 0)) (nth pts r) = d - 1) :
    orderLoop d pts (fuel + 1) fi (r :: rs) = orderLoop d pts fuel (fi ++ [r]) rs := by
  rw [orderLoop, if_neg hlen, if_pos hm]

theorem orderLoop_skip (d : ℕ) (pts : List (List α)) (fuel : ℕ)
    (fi : List ℕ) (r : ℕ) (rs : List ℕ) (hlen : ¬ fi.length = 4)
    (hm : ¬ matchCount (nth pts (fi.getLastD 0)) (nth pts r) = d - 1) :
    orderLoop d pts (fuel + 1) fi (r :: rs) = orderLoop d pts fuel fi (rs ++ [r]) := by
  rw [orderLoop, if_neg hlen, if_neg hm]

end LoopSteps

/-- C9: for every dimension D >= 2 and every four pairwise-distinct base cube
vertex indices that pass the shared-coordinate test of the face generator
(the four points share exactly D - 2 dimensions), the rotate-and-retry
ordering loop terminates within its fuel: it returns a full ordering of the
four given indices rather than cycling forever. -/
theorem face_order_loop_terminates (d : ℕ) (s : ℚ) (a b c e : ℕ)
    (hd : 2 ≤ d) (ha : a < 2 ^ d) (hb : b < 2 ^ d) (hc : c < 2 ^ d) (he : e < 2 ^ d)
    (hab : a ≠ b) (hac : a ≠ c) (hae : a ≠ e)
    (hbc : b ≠ c) (hbe : b ≠ e) (hce : c ≠ e)
    (hpass : matchAll4 (nth (cubePointsGenerator d s) a)
      (nth (cubePointsGenerator d s) b) (nth (cubePointsGenerator d s) c)
      (nth (cubePointsGenerator d s) e) = d - 2) :
    ∃ out, orderLoop d (cubePointsGenerator d s) 12 [a] [b, c, e] = some out
      ∧ out.length = 4 ∧ out.Perm [a, b, c, e] := by
  have hs : s ≠ 0 := by
    rintro rfl
    have hzero : ∀ x m : ℕ, x < 2 ^ d → m < d →
        (nth (cubePointsGenerator d 0) x)[m]? = some 0 := by
      intro x m hx hm
      rw [nth_cube_eq d 0 (by omega) x hx, List.getElem?_map,
        bitsOfWidth_getElem? d x m hm]
      unfold scaleBit
      cases x.testBit (d - 1 - m) <;> norm_num
    have hlen : (nth (cubePointsGenerator d 0) a).length = d := by
      rw [nth_cube_eq d 0 (by omega) a ha, List.length_map, bitsOfWidth_length]
    unfold matchAll4 at hpass
    rw [hlen] at hpass
    have hcongr : List.countP
        (fun m => decide
          ((nth (cubePointsGenerator d 0) b)[m]? = (nth (cubePointsGenerator d 0) a)[m]?
            ∧ (nth (cubePointsGenerator d 0) c)[m]?
              = (nth (cubePointsGenerator d 0) a)[m]?
            ∧ (nth (cubePointsGenerator d 0) e)[m]?
              = (nth (cubePointsGenerator d 0) a)[m]?))
        (List.range d)
        = List.countP (fun _ => true) (List.range d) :=
      List.countP_congr (fun m hm => by
        rw [List.mem_range] at hm
        rw [hzero a m ha hm, hzero b m hb hm, hzero c m hc hm, hzero e m he hm]
        simp)
    rw [hcongr, List.countP_true, List.length_range] at hpass
    omega
  have h4 : hamming4 d a b c e = 2 := by
    rw [matchAll4_cube d s (by omega) hs a b c e ha hb hc he] at hpass
    have := hamming4_le d a b c e
    omega
  obtain ⟨p, q, hp, hq, hpq, hout⟩ := hamming4_two_structure d a b c e h4
  have hout_ab : ∀ k < d, k ≠ p → k ≠ q → a.testBit k = b.testBit k :=
    fun k hk h1 h2 => ((hout k hk h1 h2).1).symm
  have hout_ac : ∀ k < d, k ≠ p → k ≠ q → a.testBit k = c.testBit k :=
    fun k hk h1 h2 => ((hout k hk h1 h2).2.1).symm
  have hout_ae : ∀ k < d, k ≠ p → k ≠ q → a.testBit k = e.testBit k :=
    fun k hk h1 h2 => ((hout k hk h1 h2).2.2).symm
  have hout_bc : ∀ k < d, k ≠ p → k ≠ q → b.testBit k = c.testBit k :=
    fun k hk h1 h2 => ((hout k hk h1 h2).1).trans ((hout k hk h1 h2).2.1).symm
  have hout_be : ∀ k < d, k ≠ p → k ≠ q → b.testBit k = e.testBit k :=
    fun k hk h1 h2 => ((hout k hk h1 h2).1).trans ((hout k hk h1 h2).2.2).symm
  have hout_ce : ∀ k < d, k ≠ p → k ≠ q → c.testBit k = e.testBit k :=
    fun k hk h1 h2 => ((hout k hk h1 h2).2.1).trans ((hout k hk h1 h2).2.2).symm
  have hham : ∀ x y : ℕ, (∀ k < d, k ≠ p → k ≠ q → x.testBit k = y.testBit k) →
      hamming d x y
        = sigDiff (x.testBit p, x.testBit q) (y.testBit p, y.testBit q) := by
    intro x y hxy
    rw [hamming_of_outside d x y p q hp hq hpq hxy]
    rfl
  have hsig : ∀ x y : ℕ, x < 2 ^ d → y < 2 ^ d → x ≠ y →
      (∀ k < d, k ≠ p → k ≠ q → x.testBit k = y.testBit k) →
      ((x.testBit p, x.testBit q) : Bool × Bool) ≠ (y.testBit p, y.testBit q) := by
    intro x y hx hy hxy hk heq
    exact sig_distinct d x y p q hx hy hxy hk
      (congrArg Prod.fst heq) (congrArg Prod.snd heq)
  have hmc : ∀ x y : ℕ, x < 2 ^ d → y < 2 ^ d →
      matchCount (nth (cubePointsGenerator d s) x) (nth (cubePointsGenerator d s) y)
        = d - hamming d x y :=
    fun x y hx hy => matchCount_cube d s (by omega) hs x y hx hy
  rcases sigDiff_cases (a.testBit p, a.testBit q) (b.testBit p, b.testBit q)
      (c.testBit p, c.testBit q) (e.testBit p, e.testBit q)
      (hsig a b ha hb hab hout_ab) (hsig a c ha hc hac hout_ac)
      (hsig a e ha he hae hout_ae) (hsig b c hb hc hbc hout_bc)
      (hsig b e hb he hbe hout_be) (hsig c e hc he hce hout_ce) with
    ⟨u1, u2, u3, u4, u5, u6⟩ | ⟨u1, u2, u3, u4, u5, u6⟩ | ⟨u1, u2, u3, u4, u5, u6⟩
  · -- b is the vertex opposite a; output ordering [a, c, b, e]
    have m_ab : hamming d a b = 2 := by rw [hham a b hout_ab]; exact u1
    have m_ac : hamming d a c = 1 := by rw [hham a c hout_ac]; exact u2
    have m_cb : hamming d c b = 1 := by
      rw [hamming_comm, hham b c hout_bc]; exact u4
    have m_be : hamming d b e = 1 := by rw [hham b e hout_be]; exact u5
    have m_ce : hamming d c e = 1 + 1 := by rw [hham c e hout_ce]; exact u6
    refine ⟨[a, c, b, e], ?_, rfl, List.Perm.cons a (List.Perm.swap b c [e])⟩
    have t1 : orderLoop d (cubePointsGenerator d s) 12 [a] [b, c, e]
        = orderLoop d (cubePointsGenerator d s) 11 [a] [c, e, b] :=
      orderLoop_skip d (cubePointsGenerator d s) 11 [a] b [c, e] (by simp)
        (by rw [show ([a] : List ℕ).getLastD 0 = a from rfl, hmc a b ha hb, m_ab]; omega)
    have t2 : orderLoop d (cubePointsGenerator d s) 11 [a] [c, e, b]
        = orderLoop d (cubePointsGenerator d s) 10 [a, c] [e, b] :=
      orderLoop_place d (cubePointsGenerator d s) 10 [a] c [e, b] (by simp)
        (by rw [show ([a] : List ℕ).getLastD 0 = a from rfl, hmc a c ha hc, m_ac])
    have t3 : orderLoop d (cubePointsGenerator d s) 10 [a, c] [e, b]
        = orderLoop d (cubePointsGenerator d s) 9 [a, c] [b, e] :=
      orderLoop_skip d (cubePointsGenerator d s) 9 [a, c] e [b] (by simp)
        (by rw [show ([a, c] : List ℕ).getLastD 0 = c from rfl, hmc c e hc he, m_ce]; omega)
    have t4 : orderLoop d (cubePointsGenerator d s) 9 [a, c] [b, e]
        = orderLoop d (cubePointsGenerator d s) 8 [a, c, b] [e] :=
      orderLoop_place d (cubePointsGenerator d s) 8 [a, c] b [e] (by simp)
        (by rw [show ([a, c] : List ℕ).getLastD 0 = c from rfl, hmc c b hc hb, m_cb])
    have t5 : orderLoop d (cubePointsGenerator d s) 8 [a, c, b] [e]
        = orderLoop d (cubePointsGenerator d s) 7 [a, c, b, e] [] :=
      orderLoop_place d (cubePointsGenerator d s) 7 [a, c, b] e [] (by simp)
        (by rw [show ([a, c, b] : List ℕ).getLastD 0 = b from rfl, hmc b e hb he, m_be])
    rw [t1, t2, t3, t4, t5]
    exact orderLoop_done d (cubePointsGenerator d s) 7 [a, c, b, e] [] rfl
  · -- c is the vertex opposite a; output ordering [a, b, c, e]
    have m_ab : hamming d a b = 1 := by rw [hham a b hout_ab]; exact u1
    have m_bc : hamming d b c = 1 := by rw [hham b c hout_bc]; exact u4
    have m_ce : hamming d c e = 1 := by rw [hham c e hout_ce]; exact u6
    refine ⟨[a, b, c, e], ?_, rfl, List.Perm.refl [a, b, c, e]⟩
    have t1 : orderLoop d (cubePointsGenerator d s) 12 [a] [b, c, e]
        = orderLoop d (cubePointsGenerator d s) 11 [a, b] [c, e] :=
      orderLoop_place d (cubePointsGenerator d s) 11 [a] b [c, e] (by simp)
        (by rw [show ([a] : List ℕ).getLastD 0 = a from rfl, hmc a b ha hb, m_ab])
    have t2 : orderLoop d (cubePointsGenerator d s) 11 [a, b] [c, e]
        = orderLoop d (cubePointsGenerator d s) 10 [a, b, c] [e] :=
      orderLoop_place d (cubePointsGenerator d s) 10 [a, b] c [e] (by simp)
        (by rw [show ([a, b] : List ℕ).getLastD 0 = b from rfl, hmc b c hb hc, m_bc])
    have t3 : orderLoop d (cubePointsGenerator d s) 10 [a, b, c] [e]
        = orderLoop d (cubePointsGenerator d s) 9 [a, b, c, e] [] :=
      orderLoop_place d (cubePointsGenerator d s) 9 [a, b, c] e [] (by simp)
        (by rw [show ([a, b, c] : List ℕ).getLastD 0 = c from rfl, hmc c e hc he, m_ce])
    rw [t1, t2, t3]
    exact orderLoop_done d (cubePointsGenerator d s) 9 [a, b, c, e] [] rfl
  · -- e is the vertex opposite a; output ordering [a, b, e, c]
    have m_ab : hamming d a b = 1 := by rw [hham a b hout_ab]; exact u1
    have m_bc : hamming d b c = 1 + 1 := by rw [hham b c hout_bc]; exact u4
    have m_be : hamming d b e = 1 := by rw [hham b e hout_be]; exact u5
    have m_ec : hamming d e c = 1 := by
      rw [hamming_comm, hham c e hout_ce]; exact u6
    refine ⟨[a, b, e, c], ?_, rfl,
      List.Perm.cons a (List.Perm.cons b (List.Perm.swap c e []))⟩
    have t1 : orderLoop d (cubePointsGenerator d s) 12 [a] [b, c, e]
        = orderLoop d (cubePointsGenerator d s) 11 [a, b] [c, e] :=
      orderLoop_place d (cubePointsGenerator d s) 11 [a] b [c, e] (by simp)
        (by rw [show ([a] : List ℕ).getLastD 0 = a from rfl, hmc a b ha hb, m_ab])
    have t2 : orderLoop d (cubePointsGenerator d s) 11 [a, b] [c, e]
        = orderLoop d (cubePointsGenerator d s) 10 [a, b] [e, c] :=
      orderLoop_skip d (cubePointsGenerator d s) 10 [a, b] c [e] (by simp)
        (by rw [show ([a, b] : List ℕ).getLastD 0 = b from rfl, hmc b c hb hc, m_bc]; omega)
    have t3 : orderLoop d (cubePointsGenerator d s) 10 [a, b] [e, c]
        = orderLoop d (cubePointsGenerator d s) 9 [a, b, e] [c] :=
      orderLoop_place d (cubePointsGenerator d s) 9 [a, b] e [c] (by simp)
        (by rw [show ([a, b] : List ℕ).getLastD 0 = b from rfl, hmc b e hb he, m_be])
    have t4 : orderLoop d (cubePointsGenerator d s) 9 [a, b, e] [c]
        = orderLoop d (cubePointsGenerator d s) 8 [a, b, e, c] [] :=
      orderLoop_place d (cubePointsGenerator d s) 8 [a, b, e] c [] (by simp)
        (by rw [show ([a, b, e] : List ℕ).getLastD 0 = e from rfl, hmc e c he hc, m_ec])
    rw [t1, t2, t3, t4]
    exact orderLoop_done d (cubePointsGenerator d s) 8 [a, b, e, c] [] rfl

/-- Witness for C9 at D = 2, size 1: the four square vertices 0, 1, 2, 3
pass the test (they share exactly 0 dimensions) and the ordering loop
terminates on them. -/
theorem face_order_loop_terminates_witness :
    ∃ out, orderLoop 2 (cubePointsGenerator 2 1) 12 [0] [1, 2, 3] = some out
      ∧ out.length = 4 ∧ out.Perm [0, 1, 2, 3] :=
  face_order_loop_terminates 2 1 0 1 2 3 (by norm_num) (by norm_num) (by norm_num)
    (by norm_num) (by norm_num) (by norm_num) (by norm_num) (by norm_num)
    (by norm_num) (by norm_num) (by norm_num)
    (by
      rw [matchAll4_cube 2 1 (by norm_num) (by norm_num) 0 1 2 3 (by norm_num)
        (by norm_num) (by norm_num) (by norm_num)]
      decide)

/-! ### The face list at dimension 4 -/

section FaceFast

variable {α : Type} [DecidableEq α]

/-- Numeric key realizing the lexicographic order of the decimal strings of
the indices 0..15: the strings sort as "0", "1", "10", ..., "15", "2", ...,
"9". -/
def strKey (i : ℕ) : ℕ :=
  if i ≤ 1 then i else if 10 ≤ i then i - 8 else i + 6

theorem jsIdxLt_small : ∀ i < 16, ∀ j < 16,
    jsIdxLt i j = decide (strKey i < strKey j) := by
  decide

/-- The inner three loops of the numeric-key face generator below, for a
fixed first index. -/
def faceInner (dimension : ℕ) (pts : List (List α)) (i : ℕ) :
    List (Option (List ℕ)) :=
  (List.range pts.length).flatMap fun j =>
  if ¬ strKey i < strKey j then [] else
  (List.range pts.length).flatMap fun k =>
  if ¬ strKey j < strKey k then [] else
  (List.range pts.length).flatMap fun l =>
  if ¬ strKey k < strKey l then [] else
  if matchAll4 (nth pts i) (nth pts j) (nth pts k) (nth pts l) ≠ dimension - 2 then []
  else [orderLoop dimension pts 12 [i] [j, k, l]]

/-- The face generator with the string comparison of indices replaced by the
equivalent numeric-key comparison (equal to `faceGenerator` on up to 16
points, proved below); evaluating this form avoids the character-level
string machinery. -/
def faceGeneratorFast (dimension : ℕ) (pts : List (List α)) :
    List (Option (List ℕ)) :=
  (List.range pts.length).flatMap (faceInner dimension pts)

theorem faceGenerator_eq_fast (d : ℕ) (pts : List (List α)) (hlen : pts.length = 16) :
    faceGenerator d pts = faceGeneratorFast d pts := by
  unfold faceGenerator faceGeneratorFast faceInner
  rw [hlen]
  apply flatMap_congr
  intro i hi
  apply flatMap_congr
  intro j hj
  rw [List.mem_range] at hi hj
  rw [jsIdxLt_small i hi j hj]
  by_cases hij : strKey i < strKey j
  · rw [if_neg (show ¬ ¬ (decide (strKey i < strKey j) = true) by simp [hij]),
      if_neg (show ¬ ¬ strKey i < strKey j from not_not_intro hij)]
    apply flatMap_congr
    intro k hk
    rw [List.mem_range] at hk
    rw [jsIdxLt_small j hj k hk]
    by_cases hjk : strKey j < strKey k
    · rw [if_neg (show ¬ ¬ (decide (strKey j < strKey k) = true) by simp [hjk]),
        if_neg (show ¬ ¬ strKey j < strKey k from not_not_intro hjk)]
      apply flatMap_congr
      intro l hl
      rw [List.mem_range] at hl
      rw [jsIdxLt_small k hk l hl]
      by_cases hkl : strKey k < strKey l
      · rw [if_neg (show ¬ ¬ (decide (strKey k < strKey l) = true) by simp [hkl]),
          if_neg (show ¬ ¬ strKey k < strKey l from not_not_intro hkl)]
      · rw [if_pos (show ¬ (decide (strKey k < strKey l) = true) by simp [hkl]),
          if_pos hkl]
    · rw [if_pos (show ¬ (decide (strKey j < strKey k) = true) by simp [hjk]),
        if_pos hjk]
  · rw [if_pos (show ¬ (decide (strKey i < strKey j) = true) by simp [hij]),
      if_pos hij]

end FaceFast

/-- The bit vectors of the 16 vertices at D = 4 as a literal (equal to
`cubeBits 4`, proved below). -/
def litCubeBits : List (List Bool) :=
  [[false, false, false, false], [false, false, false, true],
   [false, false, true, false], [false, false, true, true],
   [false, true, false, false], [false, true, false, true],
   [false, true, true, false], [false, true, true, true],
   [true, false, false, false], [true, false, false, true],
   [true, false, true, false], [true, false, true, true],
   [true, true, false, false], [true, true, false, true],
   [true, true, true, false], [true, true, true, true]]

theorem cubeBits4_eq_lit : cubeBits 4 = litCubeBits := by
  decide

/-- The face list the generator produces at D = 4 on the bit vectors of the
16 vertices (computed once and for all; proved equal to the generator's
output below).  The faces whose least index-string starts with "1" of a
two-digit index appear out of numeric order because the source compares
index strings, not numbers. -/
def litFaces : List (Option (List ℕ)) :=
  [some [0, 1, 3, 2], some [0, 1, 5, 4], some [0, 1, 9, 8], some [0, 2, 6, 4],
   some [0, 2, 10, 8], some [0, 4, 12, 8], some [1, 3, 7, 5], some [1, 3, 11, 9],
   some [1, 5, 13, 9], some [2, 3, 7, 6], some [4, 5, 7, 6], some [10, 11, 3, 2],
   some [10, 11, 9, 8], some [10, 11, 15, 14], some [10, 14, 12, 8],
   some [10, 14, 6, 2], some [11, 15, 13, 9], some [11, 15, 7, 3],
   some [12, 13, 5, 4], some [12, 13, 9, 8], some [12, 13, 15, 14],
   some [12, 14, 6, 4], some [13, 15, 7, 5], some [14, 15, 7, 6]]

set_option maxRecDepth 10000 in
theorem faceSeg0 : faceInner 4 litCubeBits 0 = [some [0, 1, 3, 2], some [0, 1, 5, 4], some [0, 1, 9, 8], some [0, 2, 6, 4],
    some [0, 2, 10, 8], some [0, 4, 12, 8]] := by
  decide

set_option maxRecDepth 10000 in
theorem faceSeg1 : faceInner 4 litCubeBits 1 = [some [1, 3, 7, 5], some [1, 3, 11, 9], some [1, 5, 13, 9]] := by
  decide

set_option maxRecDepth 10000 in
theorem faceSeg2 : faceInner 4 litCubeBits 2 = [some [2, 3, 7, 6]] := by
  decide

set_option maxRecDepth 10000 in
theorem faceSeg3 : faceInner 4 litCubeBits 3 = ([] : List (Option (List ℕ))) := by
  decide

set_option maxRecDepth 10000 in
theorem faceSeg4 : faceInner 4 litCubeBits 4 = [some [4, 5, 7, 6]] := by
  decide

set_option maxRecDepth 10000 in
theorem faceSeg5 : faceInner 4 litCubeBits 5 = ([] : List (Option (List ℕ))) := by
  decide

set_option maxRecDepth 10000 in
theorem faceSeg6 : faceInner 4 litCubeBits 6 = ([] : List (Option (List ℕ))) := by
  decide

set_option maxRecDepth 10000 in
theorem faceSeg7 : faceInner 4 litCubeBits 7 = ([] : List (Option (List ℕ))) := by
  decide

set_option maxRecDepth 10000 in
theorem faceSeg8 : faceInner 4 litCubeBits 8 = ([] : List (Option (List ℕ))) := by
  decide

set_option maxRecDepth 10000 in
theorem faceSeg9 : faceInner 4 litCubeBits 9 = ([] : List (Option (List ℕ))) := by
  decide

set_option maxRecDepth 10000 in
theorem faceSeg10 : faceInner 4 litCubeBits 10 = [some [10, 11, 3, 2], some [10, 11, 9, 8], some [10, 11, 15, 14],
    some [10, 14, 12, 8], some [10, 14, 6, 2]] := by
  decide

set_option maxRecDepth 10000 in
theorem faceSeg11 : faceInner 4 litCubeBits 11 = [some [11, 15, 13, 9], some [11, 15, 7, 3]] := by
  decide

set_option maxRecDepth 10000 in
theorem faceSeg12 : faceInner 4 litCubeBits 12 = [some [12, 13, 5, 4], some [12, 13, 9, 8], some [12, 13, 15, 14],
    some [12, 14, 6, 4]] := by
  decide

set_option maxRecDepth 10000 in
theorem faceSeg13 : faceInner 4 litCubeBits 13 = [some [13, 15, 7, 5]] := by
  decide

set_option maxRecDepth 10000 in
theorem faceSeg14 : faceInner 4 litCubeBits 14 = [some [14, 15, 7, 6]] := by
  decide

set_option maxRecDepth 10000 in
theorem faceSeg15 : faceInner 4 litCubeBits 15 = ([] : List (Option (List ℕ))) := by
  decide

theorem faceGenFast4_eq_lit : faceGeneratorFast 4 litCubeBits = litFaces := by
  unfold faceGeneratorFast
  rw [show (litCubeBits : List (List Bool)).length = 16 from rfl]
  rw [show List.range 16 = [0, 1, 2, 3, 4, 5, 6, 7, 8, 9, 10, 11, 12, 13, 14, 15]
    from by decide]
  simp only [List.flatMap_cons, List.flatMap_nil]
  rw [faceSeg0, faceSeg1, faceSeg2, faceSeg3, faceSeg4, faceSeg5, faceSeg6,
    faceSeg7, faceSeg8, faceSeg9, faceSeg10, faceSeg11, faceSeg12, faceSeg13,
    faceSeg14, faceSeg15]
  rfl

theorem faceGen4_eq_lit : faceGenerator 4 (cubeBits 4) = litFaces := by
  rw [faceGenerator_eq_fast 4 (cubeBits 4) (by norm_num [cubeBits]),
    cubeBits4_eq_lit, faceGenFast4_eq_lit]

set_option maxRecDepth 10000 in
theorem litFaces_props : ∀ o ∈ litFaces, o.isSome = true
    ∧ (Option.getD o []).length = 4 ∧ (Option.getD o []).Nodup
    ∧ (∀ x ∈ Option.getD o [], x < 16)
    ∧ ∀ n < 4, hamming 4 ((Option.getD o []).getD n 0)
        ((Option.getD o []).getD ((n + 1) % 4) 0) = 1 := by
  decide

set_option maxRecDepth 10000 in
theorem litFaces_subsets_fix0 : ∀ k < 0, ∀ j < k, ∀ i < j,
    (hamming4 4 i j k 0 = 2
      ↔ litFaces.countP
          (fun o => (Option.getD o []).all fun x =>
            x == i || x == j || x == k || x == 0) = 1) := by
  decide

set_option maxRecDepth 10000 in
theorem litFaces_subsets_fix1 : ∀ k < 1, ∀ j < k, ∀ i < j,
    (hamming4 4 i j k 1 = 2
      ↔ litFaces.countP
          (fun o => (Option.getD o []).all fun x =>
            x == i || x == j || x == k || x == 1) = 1) := by
  decide

set_option maxRecDepth 10000 in
theorem litFaces_subsets_fix2 : ∀ k < 2, ∀ j < k, ∀ i < j,
    (hamming4 4 i j k 2 = 2
      ↔ litFaces.countP
          (fun o => (Option.getD o []).all fun x =>
            x == i || x == j || x == k || x == 2) = 1) := by
  decide

set_option maxRecDepth 10000 in
theorem litFaces_subsets_fix3 : ∀ k < 3, ∀ j < k, ∀ i < j,
    (hamming4 4 i j k 3 = 2
      ↔ litFaces.countP
          (fun o => (Option.getD o []).all fun x =>
            x == i || x == j || x == k || x == 3) = 1) := by
  decide

set_option maxRecDepth 10000 in
theorem litFaces_subsets_fix4 : ∀ k < 4, ∀ j < k, ∀ i < j,
    (hamming4 4 i j k 4 = 2
      ↔ litFaces.countP
          (fun o => (Option.getD o []).all fun x =>
            x == i || x == j || x == k || x == 4) = 1) := by
  decide

set_option maxRecDepth 10000 in
theorem litFaces_subsets_fix5 : ∀ k < 5, ∀ j < k, ∀ i < j,
    (hamming4 4 i j k 5 = 2
      ↔ litFaces.countP
          (fun o => (Option.getD o []).all fun x =>
            x == i || x == j || x == k || x == 5) = 1) := by
  decide

set_option maxRecDepth 10000 in
theorem litFaces_subsets_fix6 : ∀ k < 6, ∀ j < k, ∀ i < j,
    (hamming4 4 i j k 6 = 2
      ↔ litFaces.countP
          (fun o => (Option.getD o []).all fun x =>
            x == i || x == j || x == k || x == 6) = 1) := by
  decide

set_option maxRecDepth 10000 in
theorem litFaces_subsets_fix7 : ∀ k < 7, ∀ j < k, ∀ i < j,
    (hamming4 4 i j k 7 = 2
      ↔ litFaces.countP
          (fun o => (Option.getD o []).all fun x =>
            x == i || x == j || x == k || x == 7) = 1) := by
  decide

set_option maxRecDepth 10000 in
theorem litFaces_subsets_fix8 : ∀ k < 8, ∀ j < k, ∀ i < j,
    (hamming4 4 i j k 8 = 2
      ↔ litFaces.countP
          (fun o => (Option.getD o []).all fun x =>
            x == i || x == j || x == k || x == 8) = 1) := by
  decide

set_option maxRecDepth 10000 in
theorem litFaces_subsets_fix9 : ∀ k < 9, ∀ j < k, ∀ i < j,
    (hamming4 4 i j k 9 = 2
      ↔ litFaces.countP
          (fun o => (Option.getD o []).all fun x =>
            x == i || x == j || x == k || x == 9) = 1) := by
  decide

set_option maxRecDepth 10000 in
theorem litFaces_subsets_fix10 : ∀ k < 10, ∀ j < k, ∀ i < j,
    (hamming4 4 i j k 10 = 2
      ↔ litFaces.countP
          (fun o => (Option.getD o []).all fun x =>
            x == i || x == j || x == k || x == 10) = 1) := by
  decide

set_option maxRecDepth 10000 in
theorem litFaces_subsets_fix11 : ∀ k < 11, ∀ j < k, ∀ i < j,
    (hamming4 4 i j k 11 = 2
      ↔ litFaces.countP
          (fun o => (Option.getD o []).all fun x =>
            x == i || x == j || x == k || x == 11) = 1) := by
  decide

set_option maxRecDepth 10000 in
theorem litFaces_subsets_fix12 : ∀ k < 12, ∀ j < k, ∀ i < j,
    (hamming4 4 i j k 12 = 2
      ↔ litFaces.countP
          (fun o => (Option.getD o []).all fun x =>
            x == i || x == j || x == k || x == 12) = 1) := by
  decide

set_option maxRecDepth 10000 in
theorem litFaces_subsets_fix13 : ∀ k < 13, ∀ j < k, ∀ i < j,
    (hamming4 4 i j k 13 = 2
      ↔ litFaces.countP
          (fun o => (Option.getD o []).all fun x =>
            x == i || x == j || x == k || x == 13) = 1) := by
  decide

set_option maxRecDepth 10000 in
theorem litFaces_subsets_fix14 : ∀ k < 14, ∀ j < k, ∀ i < j,
    (hamming4 4 i j k 14 = 2
      ↔ litFaces.countP
          (fun o => (Option.getD o []).all fun x =>
            x == i || x == j || x == k || x == 14) = 1) := by
  decide

set_option maxRecDepth 10000 in
theorem litFaces_subsets_fix15 : ∀ k < 15, ∀ j < k, ∀ i < j,
    (hamming4 4 i j k 15 = 2
      ↔ litFaces.countP
          (fun o => (Option.getD o []).all fun x =>
            x == i || x == j || x == k || x == 15) = 1) := by
  decide

theorem litFaces_subsets : ∀ l < 16, ∀ k < l, ∀ j < k, ∀ i < j,
    (hamming4 4 i j k l = 2
      ↔ litFaces.countP
          (fun o => (Option.getD o []).all fun x =>
            x == i || x == j || x == k || x == l) = 1) := by
  intro l hl
  interval_cases l
  · exact litFaces_subsets_fix0
  · exact litFaces_subsets_fix1
  · exact litFaces_subsets_fix2
  · exact litFaces_subsets_fix3
  · exact litFaces_subsets_fix4
  · exact litFaces_subsets_fix5
  · exact litFaces_subsets_fix6
  · exact litFaces_subsets_fix7
  · exact litFaces_subsets_fix8
  · exact litFaces_subsets_fix9
  · exact litFaces_subsets_fix10
  · exact litFaces_subsets_fix11
  · exact litFaces_subsets_fix12
  · exact litFaces_subsets_fix13
  · exact litFaces_subsets_fix14
  · exact litFaces_subsets_fix15

theorem getD_mem_of_lt (l : List ℕ) (n d : ℕ) (hn : n < l.length) :
    l.getD n d ∈ l := by
  rw [List.getD_eq_getElem?_getD, List.getElem?_eq_getElem hn]
  simp only [Option.getD_some]
  exact List.getElem_mem hn

theorem set_eq_iff_all_mem (ids : List ℕ) (i j k l : ℕ)
    (hlen : ids.length = 4) (hnd : ids.Nodup)
    (hij : i < j) (hjk : j < k) (hkl : k < l) :
    ids.toFinset = ({i, j, k, l} : Finset ℕ)
      ↔ (ids.all fun x => x == i || x == j || x == k || x == l) = true := by
  have hcard4 : ({i, j, k, l} : Finset ℕ).card = 4 := by
    rw [Finset.card_insert_of_not_mem (by
        simp only [Finset.mem_insert, Finset.mem_singleton]
        omega),
      Finset.card_insert_of_not_mem (by
        simp only [Finset.mem_insert, Finset.mem_singleton]
        omega),
      Finset.card_insert_of_not_mem (by
        simp only [Finset.mem_singleton]
        omega),
      Finset.card_singleton]
  constructor
  · intro h
    rw [List.all_eq_true]
    intro x hx
    have hmem : x ∈ ids.toFinset := List.mem_toFinset.mpr hx
    rw [h, Finset.mem_insert, Finset.mem_insert, Finset.mem_insert,
      Finset.mem_singleton] at hmem
    simp only [Bool.or_eq_true, beq_iff_eq]
    tauto
  · intro h
    rw [List.all_eq_true] at h
    apply Finset.eq_of_subset_of_card_le
    · intro x hx
      rw [List.mem_toFinset] at hx
      have hx' := h x hx
      simp only [Bool.or_eq_true, beq_iff_eq] at hx'
      simp only [Finset.mem_insert, Finset.mem_singleton]
      tauto
    · rw [hcard4, List.toFinset_card_of_nodup hnd, hlen]

/-- C5: at D = 4 and any nonzero size (the application uses 300 or 400), the
face generator emits exactly 24 faces; every emitted face is a terminating
ordering of 4 distinct valid indices in which consecutive points, wrapping
around, differ in exactly one coordinate; and an unordered 4-subset of
vertices is represented by exactly one emitted face precisely when its four
points share exactly D - 2 = 2 coordinates. -/
theorem face_generator_d4_spec (s : ℚ) (hs : s ≠ 0) :
    (faceGenerator 4 (cubePointsGenerator 4 s)).length = 24
    ∧ (∀ o ∈ faceGenerator 4 (cubePointsGenerator 4 s), o.isSome = true
      ∧ (Option.getD o []).length = 4 ∧ (Option.getD o []).Nodup
      ∧ (∀ x ∈ Option.getD o [], x < 16)
      ∧ ∀ n < 4, diffCount
          (nth (cubePointsGenerator 4 s) ((Option.getD o []).getD n 0))
          (nth (cubePointsGenerator 4 s) ((Option.getD o []).getD ((n + 1) % 4) 0))
          = 1)
    ∧ ∀ l < 16, ∀ k < l, ∀ j < k, ∀ i < j,
      (matchAll4 (nth (cubePointsGenerator 4 s) i) (nth (cubePointsGenerator 4 s) j)
          (nth (cubePointsGenerator 4 s) k) (nth (cubePointsGenerator 4 s) l) = 2
        ↔ (faceGenerator 4 (cubePointsGenerator 4 s)).countP
            (fun o => decide ((Option.getD o []).toFinset = ({i, j, k, l} : Finset ℕ)))
            = 1) := by
  have hmap : faceGenerator 4 (cubePointsGenerator 4 s) = litFaces := by
    rw [cubePointsGenerator_eq_map 4 s (by norm_num),
      faceGenerator_map (scaleBit s) (scaleBit_injective s hs), faceGen4_eq_lit]
  have hdiff : ∀ x y : ℕ, x < 16 → y < 16 →
      diffCount (nth (cubePointsGenerator 4 s) x) (nth (cubePointsGenerator 4 s) y)
        = hamming 4 x y := by
    intro x y hx hy
    have hmc := matchCount_cube 4 s (by norm_num) hs x y hx hy
    have hsum := matchCount_add_diffCount (nth (cubePointsGenerator 4 s) x)
      (nth (cubePointsGenerator 4 s) y)
    have hlen : (nth (cubePointsGenerator 4 s) x).length = 4 := by
      rw [nth_cube_eq 4 s (by norm_num) x hx, List.length_map, bitsOfWidth_length]
    have hle := hamming_le 4 x y
    omega
  refine ⟨?_, ?_, ?_⟩
  · rw [hmap]
    rfl
  · rw [hmap]
    intro o ho
    obtain ⟨h1, h2, h3, h4, h5⟩ := litFaces_props o ho
    refine ⟨h1, h2, h3, h4, ?_⟩
    intro n hn
    have hn1 : (Option.getD o []).getD n 0 ∈ Option.getD o [] :=
      getD_mem_of_lt (Option.getD o []) n 0 (by omega)
    have hn2 : (Option.getD o []).getD ((n + 1) % 4) 0 ∈ Option.getD o [] :=
      getD_mem_of_lt (Option.getD o []) ((n + 1) % 4) 0
        (by have := Nat.mod_lt (n + 1) (show 0 < 4 by norm_num); omega)
    rw [hdiff _ _ (h4 _ hn1) (h4 _ hn2)]
    exact h5 n hn
  · intro l hl k hk j hj i hi
    have hml : matchAll4 (nth (cubePointsGenerator 4 s) i)
        (nth (cubePointsGenerator 4 s) j) (nth (cubePointsGenerator 4 s) k)
        (nth (cubePointsGenerator 4 s) l) = 4 - hamming4 4 i j k l :=
      matchAll4_cube 4 s (by norm_num) hs i j k l (by omega) (by omega) (by omega)
        (by omega)
    have hle4 := hamming4_le 4 i j k l
    have hcount : litFaces.countP
          (fun o => decide ((Option.getD o []).toFinset = ({i, j, k, l} : Finset ℕ)))
        = litFaces.countP
          (fun o => (Option.getD o []).all fun x =>
            x == i || x == j || x == k || x == l) := by
      apply List.countP_congr
      intro o ho
      obtain ⟨-, h2, h3, -, -⟩ := litFaces_props o ho
      have hiff := set_eq_iff_all_mem (Option.getD o []) i j k l h2 h3 hi hj hk
      constructor
      · intro hdec
        exact hiff.mp (of_decide_eq_true hdec)
      · intro hall
        exact decide_eq_true (hiff.mpr hall)
    rw [hmap, hcount]
    constructor
    · intro hm
      rw [hml] at hm
      have h42 : hamming4 4 i j k l = 2 := by omega
      exact (litFaces_subsets l hl k hk j hj i hi).mp h42
    · intro hc
      have h42 := (litFaces_subsets l hl k hk j hj i hi).mpr hc
      rw [hml, h42]

/-- Witness for C5 at size 1. -/
theorem face_generator_d4_spec_witness :
    (faceGenerator 4 (cubePointsGenerator 4 (1 : ℚ))).length = 24 :=
  (face_generator_d4_spec 1 (by norm_num)).1

end HypercubeRenderer
